import Mathlib

/-!
Verification of the LeftyChords music-theory core against its specification.

The JavaScript sources (src/js/search.js, src/js/reverseLookup.js,
src/js/degrees.js, src/js/modal.js `Progressions`, src/js/app.js alteration
handling) are shallowly embedded below.  JavaScript strings are modelled as
`List Char` (abbreviated `Str`), JavaScript objects used as string-keyed maps
as association lists, and JavaScript `Map`/`Set` as association lists and
duplicate-free lists.  All definitions are executable.
-/

/-- Strings are modelled as lists of characters, matching JavaScript's
character-indexed string operations. -/
abbrev Str := List Char

/-- Association-list lookup, modelling JavaScript object property access
`obj[key]` (returns `none` for an absent key, i.e. `undefined`). -/
def lookupA {α β : Type} [DecidableEq α] : List (α × β) → α → Option β
  | [], _ => none
  | (k, v) :: rest, a => if k = a then some v else lookupA rest a

/-- Lowercase a modelled string (JavaScript `toLowerCase`; ASCII range, which
covers every character these modules compare). -/
def lowerStr (s : Str) : Str := s.map Char.toLower

/-- Uppercase a modelled string (JavaScript `toUpperCase`; ASCII range). -/
def upperStr (s : Str) : Str := s.map Char.toUpper

/-- JavaScript `str.startsWith(p)`. -/
def startsWith (s p : Str) : Bool := List.isPrefixOf p s

/-- Drop leading whitespace. -/
def dropLeadWS (s : Str) : Str := s.dropWhile Char.isWhitespace

/-- JavaScript `str.trim()`: drop leading and trailing whitespace. -/
def trimStr (s : Str) : Str := ((dropLeadWS s).reverse.dropWhile Char.isWhitespace).reverse

/-- Split a string at every character satisfying `p`; adjacent separators
produce empty tokens, which the callers below discard, so the result is
equivalent to JavaScript's run-collapsing `split(/\s+/)`. -/
def splitP (p : Char → Bool) : Str → List Str
  | [] => [[]]
  | c :: cs =>
    if p c then [] :: splitP p cs
    else
      match splitP p cs with
      | t :: ts => (c :: t) :: ts
      | [] => [[c]]

/-- Split on a single separator character (JavaScript `split(',')`,
`split('-')`). -/
def splitOnChar (sep : Char) (s : Str) : List Str := splitP (fun c => c = sep) s

/- ======================================================================
   Progressions module (src/js/modal.js, `Progressions` object)
   ====================================================================== -/

namespace Progressions

/-- `Progressions.KEYS`: display keys in flat notation, index = pitch class. -/
def KEYS : List Str :=
  ["C".data, "Db".data, "D".data, "Eb".data, "E".data, "F".data,
   "Gb".data, "G".data, "Ab".data, "A".data, "Bb".data, "B".data]

/-- `Progressions.INTERVALS`: semitones from the key root for each numeral. -/
def INTERVALS : List (Str × Nat) :=
  [("I".data, 0), ("ii".data, 2), ("iii".data, 4), ("IV".data, 5),
   ("V".data, 7), ("vi".data, 9), ("vii".data, 11), ("VII".data, 11),
   ("VI".data, 9), ("bVII".data, 10), ("bIII".data, 3), ("bVI".data, 8),
   ("i".data, 0), ("iv".data, 5), ("v".data, 7), ("bII".data, 1),
   ("II".data, 2), ("III".data, 4), ("biii".data, 3), ("bii".data, 1)]

/-- `Progressions.ALTERATIONS`: available chord alterations by quality. -/
def ALTERATIONS : List (Str × List Str) :=
  [("7".data, ["7".data, "9".data, "13".data, "7b9".data, "7#9".data,
               "7b5".data, "7#5".data, "alt".data, "7sus4".data]),
   ("m7".data, ["m7".data, "m9".data, "m11".data, "m6".data]),
   ("maj7".data, ["maj7".data, "maj9".data, "6".data, "69".data]),
   ("m7b5".data, ["m7b5".data, "dim7".data]),
   ("".data, ["".data, "sus2".data, "sus4".data, "add9".data]),
   ("m".data, ["m".data, "m7".data, "m9".data, "madd9".data])]

/-- `Progressions.getAlterations`. -/
def getAlterations (quality : Str) : List Str := (lookupA ALTERATIONS quality).getD []

/-- `Progressions.normalizeToFlat`: map the five sharp spellings to flats,
pass everything else through. -/
def normalizeToFlat (note : Str) : Str :=
  (lookupA [("C#".data, "Db".data), ("D#".data, "Eb".data), ("F#".data, "Gb".data),
            ("G#".data, "Ab".data), ("A#".data, "Bb".data)] note).getD note

/-- `numeral.replace(/[0-9]/g, '')` in `resolveRoot`. -/
def stripDigits (numeral : Str) : Str := numeral.filter (fun c => !c.isDigit)

/-- `Progressions.resolveRoot`: resolve a numeral to a chord root in a key.
On an unknown key or numeral the JavaScript logs an error and returns the
`key` argument unchanged. -/
def resolveRoot (numeral key : Str) : Str :=
  match KEYS.findIdx? (fun s => s = normalizeToFlat key) with
  | none => key
  | some keyIndex =>
    match lookupA INTERVALS (stripDigits numeral) with
    | none => key
    | some interval => KEYS.getD ((keyIndex + interval) % 12) []

/-- `Progressions.resolveChord`. -/
def resolveChord (numeral key quality : Str) : Str := resolveRoot numeral key ++ quality

/-- A flat or sectioned progression template: ordered numeral list (absent for
chart-only templates, as in the JavaScript objects) plus a quality per
numeral. -/
structure Progression where
  numerals : Option (List Str)
  qualities : List (Str × Str)
deriving DecidableEq

/-- One resolved chord slot (`{ numeral, root, quality, chordName }`). -/
structure ResolvedSlot where
  numeral : Str
  root : Str
  quality : Str
  chordName : Str
deriving DecidableEq

/-- `Progressions.resolveProgression`: resolve every numeral of a template in
a key; `progression.qualities[numeral] || ''` supplies the quality. -/
def resolveProgression (p : Progression) (key : Str) : List ResolvedSlot :=
  match p.numerals with
  | none => []
  | some ns =>
    ns.map (fun n =>
      let quality := (lookupA p.qualities n).getD []
      let root := resolveRoot n key
      ⟨n, root, quality, root ++ quality⟩)

/-- One chord slot of a chart bar (`{ n, q }`). -/
structure ChartChord where
  n : Str
  q : Str
deriving DecidableEq

/-- `Progressions.resolveChart`: resolve a bar grid, bar by bar. -/
def resolveChart (chart : List (List ChartChord)) (key : Str) : List (List ResolvedSlot) :=
  chart.map (fun bar =>
    bar.map (fun c =>
      let root := resolveRoot c.n key
      ⟨c.n, root, c.q, root ++ c.q⟩))

/-- The `"ii-V-I"` entry of `Progressions.PROGRESSIONS`. -/
def iiVI : Progression :=
  ⟨some ["ii".data, "V".data, "I".data],
   [("ii".data, "m7".data), ("V".data, "7".data), ("I".data, "maj7".data)]⟩

end Progressions

/- ======================================================================
   Chord database shape (data/guitar.json, consumed read-only)
   ====================================================================== -/

/-- One voicing (`position` in the database): per-string frets (muted = -1)
and the MIDI notes of the sounding strings.  Finger numbers, barres and base
fret are carried by the database but never read by the resolution core, so
they are omitted from the model. -/
structure Position where
  frets : List Int
  midi : List Nat
deriving DecidableEq

/-- One chord of the database: a quality suffix with its voicings. -/
structure ChordEntry where
  suffix : Str
  positions : List Position
deriving DecidableEq

/-- The chord database: root-key → chords, plus the suffix vocabulary. -/
structure ChordData where
  chords : List (Str × List ChordEntry)
  suffixes : List Str
deriving DecidableEq

/- ======================================================================
   ChordSearch module (src/js/search.js)
   ====================================================================== -/

namespace ChordSearch

/-- `ChordSearch.NOTE_ALIASES`: note-name normalization to flat notation. -/
def NOTE_ALIASES : List (Str × Str) :=
  [("C".data, "C".data), ("C#".data, "Db".data), ("DB".data, "Db".data), ("Db".data, "Db".data),
   ("D".data, "D".data), ("D#".data, "Eb".data), ("EB".data, "Eb".data), ("Eb".data, "Eb".data),
   ("E".data, "E".data), ("E#".data, "F".data), ("FB".data, "E".data), ("Fb".data, "E".data),
   ("F".data, "F".data), ("F#".data, "Gb".data), ("GB".data, "Gb".data), ("Gb".data, "Gb".data),
   ("G".data, "G".data), ("G#".data, "Ab".data), ("AB".data, "Ab".data), ("Ab".data, "Ab".data),
   ("A".data, "A".data), ("A#".data, "Bb".data), ("BB".data, "Bb".data), ("Bb".data, "Bb".data),
   ("B".data, "B".data), ("B#".data, "C".data), ("CB".data, "B".data), ("Cb".data, "B".data)]

/-- `ChordSearch.DISPLAY_KEYS`. -/
def DISPLAY_KEYS : List Str :=
  ["C".data, "Db".data, "D".data, "Eb".data, "E".data, "F".data,
   "Gb".data, "G".data, "Ab".data, "A".data, "Bb".data, "B".data]

/-- `ChordSearch.DATABASE_KEY_MAP`: normalized flat root → database key. -/
def DATABASE_KEY_MAP : List (Str × Str) :=
  [("C".data, "C".data), ("Db".data, "Csharp".data), ("D".data, "D".data),
   ("Eb".data, "Eb".data), ("E".data, "E".data), ("F".data, "F".data),
   ("Gb".data, "Fsharp".data), ("G".data, "G".data), ("Ab".data, "Ab".data),
   ("A".data, "A".data), ("Bb".data, "Bb".data), ("B".data, "B".data)]

/-- `ChordSearch.SUFFIX_ALIASES`: common suffix aliases, in source order. -/
def SUFFIX_ALIASES : List (Str × Str) :=
  [("".data, "major".data), ("M".data, "major".data), ("maj".data, "major".data),
   ("MAJ".data, "major".data), ("major".data, "major".data), ("Major".data, "major".data),
   ("MAJOR".data, "major".data),
   ("m".data, "minor".data), ("min".data, "minor".data), ("MIN".data, "minor".data),
   ("-".data, "minor".data), ("minor".data, "minor".data), ("Minor".data, "minor".data),
   ("MINOR".data, "minor".data),
   ("dim".data, "dim".data), ("o".data, "dim".data), ("°".data, "dim".data),
   ("diminished".data, "dim".data),
   ("dim7".data, "dim7".data), ("o7".data, "dim7".data), ("°7".data, "dim7".data),
   ("aug".data, "aug".data), ("+".data, "aug".data), ("augmented".data, "aug".data),
   ("sus".data, "sus4".data), ("sus4".data, "sus4".data), ("sus2".data, "sus2".data),
   ("suspended".data, "sus4".data), ("suspended4".data, "sus4".data),
   ("suspended2".data, "sus2".data),
   ("7".data, "7".data), ("dom7".data, "7".data), ("dominant7".data, "7".data),
   ("dominant".data, "7".data),
   ("maj7".data, "maj7".data), ("M7".data, "maj7".data), ("major7".data, "maj7".data),
   ("Δ7".data, "maj7".data), ("Δ".data, "maj7".data),
   ("m7".data, "m7".data), ("min7".data, "m7".data), ("minor7".data, "m7".data),
   ("-7".data, "m7".data),
   ("m7b5".data, "m7b5".data), ("ø".data, "m7b5".data), ("ø7".data, "m7b5".data),
   ("half-dim".data, "m7b5".data), ("half-diminished".data, "m7b5".data),
   ("9".data, "9".data), ("maj9".data, "maj9".data), ("m9".data, "m9".data),
   ("min9".data, "m9".data),
   ("6".data, "6".data), ("maj6".data, "6".data), ("m6".data, "m6".data),
   ("min6".data, "m6".data),
   ("add9".data, "add9".data), ("add2".data, "add9".data), ("madd9".data, "madd9".data),
   ("5".data, "5".data), ("power".data, "5".data),
   ("69".data, "69".data), ("6/9".data, "69".data),
   ("11".data, "11".data), ("13".data, "13".data), ("maj11".data, "maj11".data),
   ("maj13".data, "maj13".data), ("m11".data, "m11".data)]

/-- Root extraction of `ChordSearch.parseChordName` over the trimmed input:
uppercase the first character; consume a following `#`/`♯` as `#` or `b`/`♭`
as `b` (the JavaScript's two `'b'` branches both append the flat).  Returns
the root token and the unconsumed remainder; `none` only for empty input. -/
def rootTokenAux : Str → Option (Str × Str)
  | [] => none
  | [c] => some ([c.toUpper], [])
  | c :: m :: rest2 =>
    if m = '#' ∨ m = '♯' then some ([c.toUpper, '#'], rest2)
    else if m = 'b' ∨ m = '♭' then some ([c.toUpper, 'b'], rest2)
    else some ([c.toUpper], m :: rest2)

/-- Root extraction applied to the trimmed input string. -/
def rootTokenOf (input : Str) : Option (Str × Str) := rootTokenAux (trimStr input)

/-- Suffix normalization chain of `parseChordName`: alias table, lowercase
alias table, direct database suffix, lowercase database suffix, and the
empty-suffix default (all alias values are non-empty, so `Option` models
JavaScript truthiness exactly). -/
def normalizeSuffix (chordData : Option ChordData) (suffix : Str) : Option Str :=
  lookupA SUFFIX_ALIASES suffix <|>
  lookupA SUFFIX_ALIASES (lowerStr suffix) <|>
  (match chordData with
   | none => none
   | some cd =>
     if suffix ∈ cd.suffixes then some suffix
     else if lowerStr suffix ∈ cd.suffixes then some (lowerStr suffix)
     else none) <|>
  (if suffix = [] then some "major".data else none)

/-- `ChordSearch.parseChordName`: parse a chord name into root and suffix.
The suffix is the remainder after the root with all whitespace removed
(`trim` then `replace(/\s+/g, '')`). -/
def parseChordName (chordData : Option ChordData) (input : Str) : Option (Str × Str) :=
  match rootTokenOf input with
  | none => none
  | some (tok, rest) =>
    match lookupA NOTE_ALIASES tok with
    | none => none
    | some root =>
      some (root, (normalizeSuffix chordData (rest.filter (fun c => !c.isWhitespace))).getD
        (rest.filter (fun c => !c.isWhitespace)))

/-- `ChordSearch.suffixMatches`: prefix matching with the irregular
minor-versus-major rule. -/
def suffixMatches (dbSuffix rawSuffix : Str) : Bool :=
  if rawSuffix = [] then true
  else
    if lowerStr rawSuffix = "m".data ∨
        (startsWith (lowerStr rawSuffix) "m".data ∧
          ¬ startsWith (lowerStr rawSuffix) "ma".data) then
      if lowerStr dbSuffix = "minor".data ∨
          (startsWith (lowerStr dbSuffix) "m".data ∧
            ¬ startsWith (lowerStr dbSuffix) "maj".data) then
        if lowerStr rawSuffix = "m".data then
          lowerStr dbSuffix = "minor".data ∨ startsWith (lowerStr dbSuffix) "m".data
        else
          startsWith (lowerStr dbSuffix) (lowerStr rawSuffix) ∨
            (lowerStr dbSuffix = "minor".data ∧ lowerStr rawSuffix = "m".data)
      else false
    else startsWith (lowerStr dbSuffix) (lowerStr rawSuffix)

/-- Raw-suffix extraction of `getSuggestions`: what the user actually typed
after the root, un-normalized. -/
def rawSuffixOf (part : Str) : Str :=
  let trimmed := trimStr part
  if 1 < trimmed.length then
    if trimmed.get? 1 = some '#' ∨ trimmed.get? 1 = some 'b' ∨
        trimmed.get? 1 = some '♯' ∨ trimmed.get? 1 = some '♭' then
      trimmed.drop 2
    else trimmed.drop 1
  else []

/-- `ChordSearch.getSuggestions`: up to 10 chord names for the parsed root
whose database suffix passes `suffixMatches` against the raw typed suffix. -/
def getSuggestions (chordData : Option ChordData) (part : Str) : List Str :=
  match chordData with
  | none => []
  | some cd =>
    if part = [] then []
    else
      match parseChordName chordData part with
      | none => []
      | some (root, _) =>
        match lookupA cd.chords ((lookupA DATABASE_KEY_MAP root).getD root) with
        | none => []
        | some keyChords =>
          ((keyChords.filter (fun c => suffixMatches c.suffix (rawSuffixOf part))).map
            (fun c => root ++ (if c.suffix = "major".data then [] else c.suffix))).take 10

end ChordSearch

/- ======================================================================
   ChordDegrees module (src/js/degrees.js)
   ====================================================================== -/

namespace ChordDegrees

/-- `ChordDegrees.CHORD_FORMULAS`: intervals present in each chord type. -/
def CHORD_FORMULAS : List (Str × List Str) :=
  [("major".data, ["R".data, "3".data, "5".data]),
   ("".data, ["R".data, "3".data, "5".data]),
   ("minor".data, ["R".data, "b3".data, "5".data]),
   ("m".data, ["R".data, "b3".data, "5".data]),
   ("dim".data, ["R".data, "b3".data, "b5".data]),
   ("aug".data, ["R".data, "3".data, "#5".data]),
   ("maj7".data, ["R".data, "3".data, "5".data, "7".data]),
   ("7".data, ["R".data, "3".data, "5".data, "b7".data]),
   ("m7".data, ["R".data, "b3".data, "5".data, "b7".data]),
   ("m7b5".data, ["R".data, "b3".data, "b5".data, "b7".data]),
   ("dim7".data, ["R".data, "b3".data, "b5".data, "bb7".data]),
   ("mmaj7".data, ["R".data, "b3".data, "5".data, "7".data]),
   ("mMaj7".data, ["R".data, "b3".data, "5".data, "7".data]),
   ("9".data, ["R".data, "3".data, "5".data, "b7".data, "9".data]),
   ("maj9".data, ["R".data, "3".data, "5".data, "7".data, "9".data]),
   ("m9".data, ["R".data, "b3".data, "5".data, "b7".data, "9".data]),
   ("11".data, ["R".data, "3".data, "5".data, "b7".data, "9".data, "11".data]),
   ("maj11".data, ["R".data, "3".data, "5".data, "7".data, "9".data, "11".data]),
   ("m11".data, ["R".data, "b3".data, "5".data, "b7".data, "9".data, "11".data]),
   ("13".data, ["R".data, "3".data, "5".data, "b7".data, "9".data, "13".data]),
   ("maj13".data, ["R".data, "3".data, "5".data, "7".data, "9".data, "13".data]),
   ("6".data, ["R".data, "3".data, "5".data, "6".data]),
   ("m6".data, ["R".data, "b3".data, "5".data, "6".data]),
   ("69".data, ["R".data, "3".data, "5".data, "6".data, "9".data]),
   ("m69".data, ["R".data, "b3".data, "5".data, "6".data, "9".data]),
   ("sus2".data, ["R".data, "2".data, "5".data]),
   ("sus4".data, ["R".data, "4".data, "5".data]),
   ("sus".data, ["R".data, "4".data, "5".data]),
   ("7sus4".data, ["R".data, "4".data, "5".data, "b7".data]),
   ("7sus2".data, ["R".data, "2".data, "5".data, "b7".data]),
   ("add9".data, ["R".data, "3".data, "5".data, "9".data]),
   ("madd9".data, ["R".data, "b3".data, "5".data, "9".data]),
   ("add11".data, ["R".data, "3".data, "5".data, "11".data]),
   ("alt".data, ["R".data, "3".data, "b5".data, "b7".data, "b9".data, "#9".data]),
   ("7b5".data, ["R".data, "3".data, "b5".data, "b7".data]),
   ("7#5".data, ["R".data, "3".data, "#5".data, "b7".data]),
   ("aug7".data, ["R".data, "3".data, "#5".data, "b7".data]),
   ("7b9".data, ["R".data, "3".data, "5".data, "b7".data, "b9".data]),
   ("7#9".data, ["R".data, "3".data, "5".data, "b7".data, "#9".data]),
   ("9b5".data, ["R".data, "3".data, "b5".data, "b7".data, "9".data]),
   ("aug9".data, ["R".data, "3".data, "#5".data, "b7".data, "9".data]),
   ("9#11".data, ["R".data, "3".data, "5".data, "b7".data, "9".data, "#11".data]),
   ("maj7b5".data, ["R".data, "3".data, "b5".data, "7".data]),
   ("maj7#5".data, ["R".data, "3".data, "#5".data, "7".data]),
   ("maj7sus2".data, ["R".data, "2".data, "5".data, "7".data]),
   ("mmaj7b5".data, ["R".data, "b3".data, "b5".data, "7".data]),
   ("mmaj9".data, ["R".data, "b3".data, "5".data, "7".data, "9".data]),
   ("mmaj11".data, ["R".data, "b3".data, "5".data, "7".data, "9".data, "11".data]),
   ("5".data, ["R".data, "5".data]),
   ("sus2sus4".data, ["R".data, "2".data, "4".data, "5".data])]

/-- `ChordDegrees.INTERVAL_SEMITONES`: semitones from the root for each
interval token, in source (insertion) order. -/
def INTERVAL_SEMITONES : List (Str × Nat) :=
  [("R".data, 0),
   ("b2".data, 1), ("2".data, 2), ("#2".data, 3),
   ("b3".data, 3), ("3".data, 4),
   ("4".data, 5), ("#4".data, 6),
   ("b5".data, 6), ("5".data, 7), ("#5".data, 8),
   ("6".data, 9), ("bb7".data, 9), ("b7".data, 10), ("7".data, 11),
   ("b9".data, 13), ("9".data, 14), ("#9".data, 15),
   ("11".data, 17), ("#11".data, 18),
   ("b13".data, 20), ("13".data, 21)]

/-- `SEMITONES_TO_INTERVALS[s]` as built by `buildSemitonesMap`: the table
entries whose semitone value is `s` mod 12, in insertion order. -/
def semitonesToIntervals (s : Nat) : List (Str × Nat) :=
  INTERVAL_SEMITONES.filter (fun p => p.2 % 12 = s)

/-- `ChordDegrees.getRootPitchClass` (`?? 0` fallback included). -/
def getRootPitchClass (rootKey : Str) : Nat :=
  (lookupA
    [("C".data, 0), ("Csharp".data, 1), ("C#".data, 1), ("Db".data, 1),
     ("D".data, 2), ("Eb".data, 3), ("D#".data, 3), ("E".data, 4),
     ("F".data, 5), ("Fsharp".data, 6), ("F#".data, 6), ("Gb".data, 6),
     ("G".data, 7), ("Ab".data, 8), ("G#".data, 8), ("A".data, 9),
     ("Bb".data, 10), ("A#".data, 10), ("B".data, 11)] rootKey).getD 0

/-- The global degree-priority list of `findIntervalFromFormula`. -/
def priorityList : List Str :=
  ["R".data, "5".data, "3".data, "b3".data, "7".data, "b7".data,
   "4".data, "2".data, "6".data, "9".data, "11".data, "13".data]

/-- First loop of `findIntervalFromFormula`: the first formula token whose
defined semitone value (mod 12) equals the distance. -/
def firstFormulaMatch (formula : List Str) (semitones : Nat) : Option Str :=
  formula.find? (fun t =>
    match lookupA INTERVAL_SEMITONES t with
    | some v => v % 12 = semitones
    | none => false)

/-- `ChordDegrees.findIntervalFromFormula`: formula match first, then the
priority list over the same-semitone-class entries, then the first table
entry of that class. -/
def findIntervalFromFormula (semitones : Nat) (formula : List Str) : Option Str :=
  match firstFormulaMatch formula semitones with
  | some t => some t
  | none =>
    match semitonesToIntervals semitones with
    | [] => none
    | possible =>
      match priorityList.find? (fun p => possible.any (fun i => i.1 = p)) with
      | some p => some p
      | none => (possible.head?).map (fun i => i.1)

/-- The formula chosen by `calculateIntervals`:
`CHORD_FORMULAS[suffix] || CHORD_FORMULAS["major"]`. -/
def formulaOf (suffix : Str) : List Str :=
  (lookupA CHORD_FORMULAS suffix).getD ((lookupA CHORD_FORMULAS "major".data).getD [])

/-- The number of non-muted string slots before string `i` — the value of the
JavaScript `midiIndex` counter when string `i` is processed (a missing frets
entry counts as non-muted, exactly as `undefined !== -1`). -/
def countSB : List Int → Nat → Nat
  | _, 0 => 0
  | [], i + 1 => i + 1
  | f :: fs, i + 1 => (if f = -1 then 0 else 1) + countSB fs i

/-- The string loop of `calculateIntervals`: per string, muted gives `null`;
otherwise the next MIDI note is consumed (`null` when the midi array is
exhausted) and labelled through `findIntervalFromFormula`. -/
def scanStrings (rootPC : Nat) (formula : List Str) :
    Nat → List Int → List Nat → List (Option Str)
  | 0, _, _ => []
  | n + 1, [], [] => none :: scanStrings rootPC formula n [] []
  | n + 1, [], m :: ms =>
    findIntervalFromFormula ((m % 12 + 12 - rootPC) % 12) formula ::
      scanStrings rootPC formula n [] ms
  | n + 1, f :: fs, midi =>
    if f = -1 then none :: scanStrings rootPC formula n fs midi
    else
      match midi with
      | [] => none :: scanStrings rootPC formula n fs []
      | m :: ms =>
        findIntervalFromFormula ((m % 12 + 12 - rootPC) % 12) formula ::
          scanStrings rootPC formula n fs ms

/-- `ChordDegrees.calculateIntervals`: interval labels for the six strings of
a voicing. -/
def calculateIntervals (position : Position) (rootKey suffix : Str) : List (Option Str) :=
  if position.midi = [] then List.replicate 6 none
  else scanStrings (getRootPitchClass rootKey) (formulaOf suffix) 6 position.frets position.midi

end ChordDegrees

/- ======================================================================
   App alteration handling (src/js/app.js)
   ====================================================================== -/

namespace App

/-- `this.alterations[slotKey] = quality`: store or overwrite a slot's
override (association-map update). -/
def setAlteration (alter : List (Nat × Str)) (slot : Nat) (q : Str) : List (Nat × Str) :=
  (alter.filter (fun p => p.1 ≠ slot)) ++ [(slot, q)]

/-- `delete this.alterations[slotKey]`. -/
def deleteAlteration (alter : List (Nat × Str)) (slot : Nat) : List (Nat × Str) :=
  alter.filter (fun p => p.1 ≠ slot)

/-- The alteration-popup click handler: choosing the slot's original quality
deletes the override entry, anything else stores it. -/
def clickAlteration (alter : List (Nat × Str)) (slot : Nat) (originalQuality chosen : Str) :
    List (Nat × Str) :=
  if chosen = originalQuality then deleteAlteration alter slot
  else setAlteration alter slot chosen

/-- Chord names as rendered by `renderProgressionNormal`:
`this.alterations[index] !== undefined ? this.alterations[index] : chord.quality`
appended to the slot root. -/
def displayedChordNames (alter : List (Nat × Str))
    (resolved : List Progressions.ResolvedSlot) : List Str :=
  resolved.enum.map (fun p => p.2.root ++ ((lookupA alter p.1).getD p.2.quality))

end App

/- ======================================================================
   ReverseLookup module (src/js/reverseLookup.js)
   ====================================================================== -/

namespace ReverseLookup

/-- `ReverseLookup.NOTE_TO_PITCH_CLASS`. -/
def NOTE_TO_PITCH_CLASS : List (Str × Nat) :=
  [("C".data, 0), ("C#".data, 1), ("Db".data, 1), ("D♭".data, 1),
   ("D".data, 2), ("D#".data, 3), ("Eb".data, 3), ("E♭".data, 3),
   ("E".data, 4), ("E#".data, 5), ("Fb".data, 4), ("F♭".data, 4),
   ("F".data, 5), ("F#".data, 6), ("Gb".data, 6), ("G♭".data, 6),
   ("G".data, 7), ("G#".data, 8), ("Ab".data, 8), ("A♭".data, 8),
   ("A".data, 9), ("A#".data, 10), ("Bb".data, 10), ("B♭".data, 10),
   ("B".data, 11), ("B#".data, 0), ("Cb".data, 11), ("C♭".data, 11)]

/-- `ReverseLookup.PITCH_CLASS_TO_NOTE` (display, flat notation). -/
def PITCH_CLASS_TO_NOTE : List (Nat × Str) :=
  [(0, "C".data), (1, "Db".data), (2, "D".data), (3, "Eb".data),
   (4, "E".data), (5, "F".data), (6, "Gb".data), (7, "G".data),
   (8, "Ab".data), (9, "A".data), (10, "Bb".data), (11, "B".data)]

/-- Display note name of a pitch class. -/
def pcToNote (pc : Nat) : Str := (lookupA PITCH_CLASS_TO_NOTE pc).getD []

/-- `ReverseLookup.DATABASE_KEY_TO_DISPLAY`. -/
def DATABASE_KEY_TO_DISPLAY : List (Str × Str) :=
  [("C".data, "C".data), ("Csharp".data, "Db".data), ("D".data, "D".data),
   ("Eb".data, "Eb".data), ("E".data, "E".data), ("F".data, "F".data),
   ("Fsharp".data, "Gb".data), ("G".data, "G".data), ("Ab".data, "Ab".data),
   ("A".data, "A".data), ("Bb".data, "Bb".data), ("B".data, "B".data)]

/-- `this.DATABASE_KEY_TO_DISPLAY[key] || key` in `buildIndex`. -/
def displayKeyOf (key : Str) : Str := (lookupA DATABASE_KEY_TO_DISPLAY key).getD key

/-- Display chord name used by `buildIndex`:
`displayKey + (chord.suffix === 'major' ? '' : chord.suffix)`. -/
def chordNameOf (displayKey suffix : Str) : Str :=
  displayKey ++ (if suffix = "major".data then [] else suffix)

/-- Deduplicate keeping first occurrences (JavaScript `Set` insertion
semantics). -/
def dedupKF : List Nat → List Nat
  | [] => []
  | x :: xs => x :: (dedupKF xs).filter (fun y => y ≠ x)

/-- `ReverseLookup.midiToPitchClasses`: distinct `midi % 12` values, sorted
ascending. -/
def midiToPitchClasses (midi : List Nat) : List Nat :=
  List.insertionSort (· ≤ ·) (dedupKF (midi.map (fun n => n % 12)))

/-- `/[A-G]/.test(c)` on an uppercase letter. -/
def isUpperAG (c : Char) : Bool := 'A' ≤ c ∧ c ≤ 'G'

/-- `/[A-G]/i.test(c)`. -/
def isLetterAGi (c : Char) : Bool := 'A' ≤ c.toUpper ∧ c.toUpper ≤ 'G'

/-- `/[DEGAB]/.test(c)` (case-sensitive, as in the source): the previous
letter can take a flat. -/
def acceptsFlat (c : Char) : Bool := c = 'D' ∨ c = 'E' ∨ c = 'G' ∨ c = 'A' ∨ c = 'B'

/-- The `'b'`-disambiguation of `parseCondensedNotes`, on the preceding
letter (original case) and the character after the candidate flat:
when that character is a letter A–G or absent, `'b'` is a flat only if the
preceding letter accepts one; otherwise `'b'` is always a flat. -/
def flatDecision (c : Char) (next2 : Option Char) : Bool :=
  match next2 with
  | none => acceptsFlat c
  | some d => if isLetterAGi d then acceptsFlat c else true

/-- `ReverseLookup.parseCondensedNotes`: greedy left-to-right scan of a
condensed note run; non-letters are skipped; `#`/`♯` always modifies; `B`,
`b`, `♭` go through `flatDecision`, and when rejected as a flat the scanner
resumes at that character so it becomes the separate note B. -/
def parseCondensedNotes : Str → List Str
  | [] => []
  | [c] => if !isLetterAGi c then [] else [[c.toUpper]]
  | c :: m :: rest2 =>
    if !isLetterAGi c then parseCondensedNotes (m :: rest2)
    else if m = '#' ∨ m = '♯' then [c.toUpper, '#'] :: parseCondensedNotes rest2
    else if m = 'B' ∨ m = 'b' ∨ m = '♭' then
      if flatDecision c rest2.head? then [c.toUpper, 'b'] :: parseCondensedNotes rest2
      else [c.toUpper] :: parseCondensedNotes (m :: rest2)
    else [c.toUpper] :: parseCondensedNotes (m :: rest2)

/-- `ReverseLookup.normalizeNoteName`: trim, uppercase the letter, resolve a
recognized accidental spelling, and validate against the note table. -/
def normalizeNoteName (note : Str) : Option Str :=
  match trimStr note with
  | [] => none
  | c :: rest =>
    if !isUpperAG c.toUpper then none
    else
      let full :=
        if rest = [] then [c.toUpper]
        else
          if lowerStr rest = "#".data ∨ lowerStr rest = "♯".data ∨
              lowerStr rest = "sharp".data then [c.toUpper, '#']
          else if lowerStr rest = "b".data ∨ lowerStr rest = "♭".data ∨
              lowerStr rest = "flat".data then [c.toUpper, 'b']
          else [c.toUpper]
      if (lookupA NOTE_TO_PITCH_CLASS full).isSome then some full else none

/-- Token splitting of `parseNoteInput`: commas, then whitespace, then
dashes, else a condensed run. -/
def notesOf (cleaned : Str) : List Str :=
  if ',' ∈ cleaned then (splitOnChar ',' cleaned).map trimStr
  else if ' ' ∈ cleaned then splitP (fun c => c.isWhitespace) cleaned
  else if '-' ∈ cleaned then (splitOnChar '-' cleaned).map trimStr
  else parseCondensedNotes cleaned

/-- Pitch-class collection of `parseNoteInput`: normalize each token, look it
up, keep the distinct pitch classes (JavaScript `Set`) in insertion order. -/
def collectPcs (notes : List Str) : List Nat :=
  dedupKF (notes.filterMap
    (fun n => (normalizeNoteName n).bind (lookupA NOTE_TO_PITCH_CLASS)))

/-- `ReverseLookup.parseNoteInput`: trim and uppercase, split into note
tokens, collect the distinct pitch classes and sort them ascending; `none`
for an empty input or when nothing parsed. -/
def parseNoteInput (input : Str) : Option (List Nat) :=
  if input = [] then none
  else
    if collectPcs (notesOf (upperStr (trimStr input))) = [] then none
    else some (List.insertionSort (· ≤ ·) (collectPcs (notesOf (upperStr (trimStr input)))))

/-- Add one chord name under one pitch-class-set key of the index
(`Map` of `Set`s: create the entry or extend it without duplicates). -/
def insertIdx : List (List Nat × List Str) → List Nat → Str → List (List Nat × List Str)
  | [], k, name => [(k, [name])]
  | (k0, s) :: rest, k, name =>
    if k0 = k then (k0, if name ∈ s then s else s ++ [name]) :: rest
    else (k0, s) :: insertIdx rest k name

/-- `this.midiIndex.get(key)` (with a missing entry read as the empty set). -/
def lookupIdx : List (List Nat × List Str) → List Nat → List Str
  | [], _ => []
  | (k0, s) :: rest, k => if k0 = k then s else lookupIdx rest k

/-- Inner loop of `buildIndex` over one chord's positions. -/
def addPositions (name : Str) : List (List Nat × List Str) → List Position →
    List (List Nat × List Str)
  | idx, [] => idx
  | idx, p :: ps =>
    addPositions name
      (if p.midi ≠ [] then insertIdx idx (midiToPitchClasses p.midi) name else idx) ps

/-- Middle loop of `buildIndex` over one key's chords. -/
def addChords (displayKey : Str) : List (List Nat × List Str) → List ChordEntry →
    List (List Nat × List Str)
  | idx, [] => idx
  | idx, c :: cs =>
    addChords displayKey (addPositions (chordNameOf displayKey c.suffix) idx c.positions) cs

/-- Outer loop of `buildIndex` over the database keys. -/
def buildIndexAux : List (List Nat × List Str) → List (Str × List ChordEntry) →
    List (List Nat × List Str)
  | idx, [] => idx
  | idx, (key, chords) :: rest => buildIndexAux (addChords (displayKeyOf key) idx chords) rest

/-- `ReverseLookup.buildIndex`: pitch-class-set → chord-name-set index over
the whole database. -/
def buildIndex (db : ChordData) : List (List Nat × List Str) := buildIndexAux [] db.chords

/-- Result record of `ReverseLookup.search`. -/
structure SearchResult where
  notes : List Str
  chords : List Str
  pitchClasses : List Nat
  error : Option Str
deriving DecidableEq

/-- Lexicographic string order (JavaScript's default `Array.sort`
comparison). -/
def lexLe : Str → Str → Bool
  | [], _ => true
  | _ :: _, [] => false
  | a :: as, b :: bs => if a = b then lexLe as bs else a < b

/-- `Array.from(chordSet).sort()`. -/
def sortStr (l : List Str) : List Str := List.insertionSort (fun a b => lexLe a b) l

/-- `ReverseLookup.search` over an initialized index (`init` builds the index
from the database once; `search` then queries it). -/
def search (db : ChordData) (input : Str) : SearchResult :=
  match parseNoteInput input with
  | none => ⟨[], [], [], some "Invalid note input".data⟩
  | some pcs =>
    if lookupIdx (buildIndex db) pcs = [] then ⟨pcs.map pcToNote, [], pcs, none⟩
    else ⟨pcs.map pcToNote, sortStr (lookupIdx (buildIndex db) pcs), pcs, none⟩

end ReverseLookup

/- ======================================================================
   Claim-side constructions, spec-modelled data, concrete examples
   ====================================================================== -/

/-- Join tokens with single spaces (query construction for claim C1: "a note
query consisting of the note names of S"). -/
def joinSpace : List Str → Str
  | [] => []
  | [t] => t
  | t :: ts => t ++ ' ' :: joinSpace ts

/-- The space-separated note-name query text for a pitch-class set, using the
source's display spellings. -/
def noteNamesOf (pcs : List Nat) : Str := joinSpace (pcs.map ReverseLookup.pcToNote)

/-- Modelled from the spec: the suffix vocabulary of the chord database
(`data/guitar.json` is bundled data outside the analyzed sources).  §3/§4.2
require every database quality to be a canonical suffix key with a known
interval formula and reachable through the parser's database fallback; this
is the canonical vocabulary consistent with the source's formula and
alteration tables. -/
def specDbSuffixes : List Str :=
  ["major".data, "minor".data, "dim".data, "dim7".data, "sus2".data, "sus4".data,
   "sus2sus4".data, "7sus4".data, "alt".data, "aug".data, "aug7".data, "aug9".data,
   "5".data, "6".data, "69".data, "m69".data, "7".data, "7b5".data, "7#5".data,
   "7b9".data, "7#9".data, "9".data, "9b5".data, "9#11".data, "11".data, "13".data,
   "maj7".data, "maj7b5".data, "maj7#5".data, "maj9".data, "maj11".data, "maj13".data,
   "m6".data, "m7".data, "m7b5".data, "m9".data, "m11".data,
   "mmaj7".data, "mmaj7b5".data, "mmaj9".data, "mmaj11".data,
   "add9".data, "madd9".data]

/-- Modelled from the spec: a database value carrying the spec-modelled
suffix vocabulary (the chord lists play no role in name parsing). -/
def specDb : ChordData := ⟨[], specDbSuffixes⟩

/-- The claim's reading of the condensed-`'b'` rule (C9): flat exactly when
(the following character is not a letter A–G, or is end-of-string) and the
preceding letter accepts a flat. -/
def claimFlatDecision (c : Char) (next2 : Option Char) : Bool :=
  (match next2 with
   | some d => !ReverseLookup.isLetterAGi d
   | none => true) && ReverseLookup.acceptsFlat c

/-- The condensed scanner as the claim describes it: identical to
`parseCondensedNotes` except that the `'b'` disambiguation follows
`claimFlatDecision`. -/
def claimCondensedScan : Str → List Str
  | [] => []
  | [c] => if !ReverseLookup.isLetterAGi c then [] else [[c.toUpper]]
  | c :: m :: rest2 =>
    if !ReverseLookup.isLetterAGi c then claimCondensedScan (m :: rest2)
    else if m = '#' ∨ m = '♯' then [c.toUpper, '#'] :: claimCondensedScan rest2
    else if m = 'B' ∨ m = 'b' ∨ m = '♭' then
      if claimFlatDecision c rest2.head? then [c.toUpper, 'b'] :: claimCondensedScan rest2
      else [c.toUpper] :: claimCondensedScan (m :: rest2)
    else [c.toUpper] :: claimCondensedScan (m :: rest2)

/-- The claim's fallback rule for degree labels (C6): the first entry of the
global priority list whose defined semitone value (mod 12) equals the
distance. -/
def priorityFirst (s : Nat) : Option Str :=
  ChordDegrees.priorityList.find? (fun p =>
    match lookupA ChordDegrees.INTERVAL_SEMITONES p with
    | some v => v % 12 = s
    | none => false)

/-- The first interval defined in the semitone table (insertion order) whose
semitone class equals the distance — the source's final fallback. -/
def tableFirst (s : Nat) : Option Str :=
  ((ChordDegrees.semitonesToIntervals s).head?).map (fun i => i.1)

/-- A voicing sounding only a note one semitone above C (MIDI 13 on an
otherwise muted grid): distance 1 matches no major-formula token and no
priority-list entry. -/
def posB2 : Position := ⟨[1, -1, -1, -1, -1, -1], [13]⟩

/-- Counterexample database for C1: the chord "C" (suffix `major`) has one
voicing sounding exactly {C,E,G} and a second voicing sounding exactly
{C,D,E,G}. -/
def dbCE : ChordData :=
  ⟨[("C".data, [⟨"major".data,
      [⟨[-1, 3, 2, 0, 1, 0], [48, 52, 55]⟩,
       ⟨[-1, 3, 2, 0, 1, 0], [48, 50, 52, 55]⟩]⟩])],
   ["major".data]⟩

/-- Witness database for C1: a single C-major voicing sounding {C,E,G}. -/
def dbW : ChordData :=
  ⟨[("C".data, [⟨"major".data, [⟨[-1, 3, 2, 0, 1, 0], [48, 52, 55]⟩]⟩])],
   ["major".data]⟩

/-- Witness database for C7: root D carries a minor and a maj7 chord. -/
def dbSuggest : ChordData :=
  ⟨[("D".data, [⟨"minor".data, []⟩, ⟨"maj7".data, []⟩])],
   ["minor".data, "maj7".data]⟩

/-- C7's trigger condition on the raw typed suffix: non-empty and, lowercased,
equal to "m" or starting with "m" but not with "ma". -/
abbrev minorishRaw (raw : Str) : Prop :=
  raw ≠ [] ∧
    (lowerStr raw = "m".data ∨
      (startsWith (lowerStr raw) "m".data ∧ ¬ startsWith (lowerStr raw) "ma".data))

/-- C7's minor-family condition on a database suffix: lowercased, equal to
"minor", or starting with "m" but not with "maj". -/
abbrev minorFamily (s : Str) : Prop :=
  lowerStr s = "minor".data ∨
    (startsWith (lowerStr s) "m".data ∧ ¬ startsWith (lowerStr s) "maj".data)

/-- Every slot produced by `resolveProgression` carries
`chordName = root ++ quality`, with the root resolved by `resolveRoot` and the
quality looked up from the template. -/
theorem resolveProgression_slot_spec (p : Progressions.Progression) (key : Str)
    (s : Progressions.ResolvedSlot) (hs : s ∈ Progressions.resolveProgression p key) :
    s.chordName = s.root ++ s.quality ∧ s.root = Progressions.resolveRoot s.numeral key ∧
      s.quality = (lookupA p.qualities s.numeral).getD [] := by
  unfold Progressions.resolveProgression at hs
  cases hns : p.numerals with
  | none => simp [hns] at hs
  | some ns =>
    rw [hns] at hs
    obtain ⟨n, _, rfl⟩ := List.mem_map.1 hs
    exact ⟨rfl, rfl, rfl⟩

/-- `resolveProgression` output length equals the numeral-list length. -/
theorem resolveProgression_length (p : Progressions.Progression) (key : Str) :
    (Progressions.resolveProgression p key).length = (p.numerals.getD []).length := by
  unfold Progressions.resolveProgression
  cases p.numerals <;> simp

/-- C2: resolving a progression computes each slot's root as
`KEYS[(keyIndex + semitoneOffset(numeral)) mod 12]` in the fixed flat-key
ordering and each chord name as that root concatenated with the slot's
quality; resolving the ii-V-I template in key Bb yields exactly
["Cm7", "F7", "Bbmaj7"], in that order. -/
theorem c2_progression_resolution :
    (∀ n key ki iv,
        Progressions.KEYS.findIdx? (fun s => s = Progressions.normalizeToFlat key) = some ki →
        lookupA Progressions.INTERVALS (Progressions.stripDigits n) = some iv →
        Progressions.resolveRoot n key = Progressions.KEYS.getD ((ki + iv) % 12) []) ∧
    (∀ p key s, s ∈ Progressions.resolveProgression p key →
        s.chordName = s.root ++ s.quality ∧
        s.root = Progressions.resolveRoot s.numeral key ∧
        s.quality = (lookupA p.qualities s.numeral).getD []) ∧
    (Progressions.resolveProgression Progressions.iiVI "Bb".data).map
        Progressions.ResolvedSlot.chordName =
      ["Cm7".data, "F7".data, "Bbmaj7".data] := by
  refine ⟨fun n key ki iv hk hn => ?_, fun p key s hs => resolveProgression_slot_spec p key s hs, by decide⟩
  unfold Progressions.resolveRoot
  rw [hk, hn]

/-- C2 witness: the resolution rule applied at numeral "ii" in key "Bb"
(key index 10, offset 2) yields root "C", and the concrete slot list holds. -/
theorem c2_progression_resolution_witness :
    Progressions.resolveRoot "ii".data "Bb".data = "C".data ∧
    ⟨"ii".data, "C".data, "m7".data, "Cm7".data⟩ ∈
      Progressions.resolveProgression Progressions.iiVI "Bb".data := by
  constructor
  · have h := c2_progression_resolution.1 "ii".data "Bb".data 10 2 (by decide) (by decide)
    simpa using h
  · have h := c2_progression_resolution.2.2
    decide

/-- C3 counterexample: resolving the ii-V-I template in the unknown key "H"
does not fail and does not withhold output — the key is not in `KEYS`, yet a
fully-populated three-slot list is returned, with the key string substituted
as every root. -/
theorem c3_unknown_key_counterexample :
    Progressions.KEYS.findIdx?
        (fun s => s = Progressions.normalizeToFlat "H".data) = none ∧
    (Progressions.resolveProgression Progressions.iiVI "H".data).map
        Progressions.ResolvedSlot.chordName =
      ["Hm7".data, "H7".data, "Hmaj7".data] := by
  decide

/-- C3 (amended): an unknown key or unknown numeral does not make resolution
fail; `resolveRoot` returns the key argument unchanged in both cases, and
`resolveProgression` still returns one resolved slot per template numeral
(with the key substituted for unresolvable roots) rather than no output. -/
theorem c3_unknown_tokens_degrade_gracefully :
    (∀ n key,
        Progressions.KEYS.findIdx? (fun s => s = Progressions.normalizeToFlat key) = none →
        Progressions.resolveRoot n key = key) ∧
    (∀ n key ki,
        Progressions.KEYS.findIdx? (fun s => s = Progressions.normalizeToFlat key) = some ki →
        lookupA Progressions.INTERVALS (Progressions.stripDigits n) = none →
        Progressions.resolveRoot n key = key) ∧
    (∀ p key ns, p.numerals = some ns →
        (Progressions.resolveProgression p key).length = ns.length) := by
  refine ⟨fun n key hk => ?_, fun n key ki hk hn => ?_, fun p key ns hns => ?_⟩
  · unfold Progressions.resolveRoot
    rw [hk]
  · unfold Progressions.resolveRoot
    rw [hk, hn]
  · have h := resolveProgression_length p key
    rw [hns] at h
    simpa using h

/-- C3 amended witness: instantiated at the unknown key "H" and at the
unknown numeral "X" in the known key "C". -/
theorem c3_unknown_tokens_degrade_gracefully_witness :
    Progressions.resolveRoot "ii".data "H".data = "H".data ∧
    Progressions.resolveRoot "X".data "C".data = "C".data ∧
    (Progressions.resolveProgression Progressions.iiVI "H".data).length = 3 := by
  refine ⟨c3_unknown_tokens_degrade_gracefully.1 "ii".data "H".data (by decide),
    c3_unknown_tokens_degrade_gracefully.2.1 "X".data "C".data 0 (by decide) (by decide),
    c3_unknown_tokens_degrade_gracefully.2.2 Progressions.iiVI "H".data _ rfl⟩

/-- C10: `resolveRoot` is total — it either falls back to the key argument or
resolves through the tables; `resolveProgression` always returns one slot per
template numeral, and `resolveChart` preserves the bar structure exactly, with
every slot's chord name assembled from its root and quality. -/
theorem c10_resolution_total :
    (∀ n key,
        Progressions.resolveRoot n key = key ∨
        ∃ ki iv,
          Progressions.KEYS.findIdx? (fun s => s = Progressions.normalizeToFlat key) = some ki ∧
          lookupA Progressions.INTERVALS (Progressions.stripDigits n) = some iv ∧
          Progressions.resolveRoot n key = Progressions.KEYS.getD ((ki + iv) % 12) []) ∧
    (∀ p key, (Progressions.resolveProgression p key).length = (p.numerals.getD []).length) ∧
    (∀ chart key, (Progressions.resolveChart chart key).map List.length = chart.map List.length) ∧
    (∀ chart key bar, bar ∈ Progressions.resolveChart chart key →
        ∀ s, s ∈ bar → s.chordName = s.root ++ s.quality) := by
  refine ⟨fun n key => ?_, resolveProgression_length, fun chart key => ?_, fun chart key bar hbar s hs => ?_⟩
  · unfold Progressions.resolveRoot
    cases hk : Progressions.KEYS.findIdx? (fun s => s = Progressions.normalizeToFlat key) with
    | none => exact Or.inl rfl
    | some ki =>
      cases hn : lookupA Progressions.INTERVALS (Progressions.stripDigits n) with
      | none => exact Or.inl rfl
      | some iv => exact Or.inr ⟨ki, iv, rfl, rfl, rfl⟩
  · unfold Progressions.resolveChart
    simp
  · unfold Progressions.resolveChart at hbar
    obtain ⟨b, _, rfl⟩ := List.mem_map.1 hbar
    obtain ⟨c, _, rfl⟩ := List.mem_map.1 hs
    rfl

/-- C10 witness: instantiated at a one-bar chart and the unknown key "H"
(which resolveRoot passes through unchanged inside a full-size output). -/
theorem c10_resolution_total_witness :
    (Progressions.resolveChart [[⟨"I".data, "maj7".data⟩]] "H".data).map List.length = [1] ∧
    "Hmaj7".data = "H".data ++ "maj7".data := by
  refine ⟨c10_resolution_total.2.2.1 [[⟨"I".data, "maj7".data⟩]] "H".data, ?_⟩
  have h := c10_resolution_total.2.2.2 [[⟨"I".data, "maj7".data⟩]] "H".data
    [⟨"I".data, "H".data, "maj7".data, "Hmaj7".data⟩] (by decide)
    ⟨"I".data, "H".data, "maj7".data, "Hmaj7".data⟩ (by decide)
  exact h

/-- A successful association lookup exposes its entry. -/
theorem lookupA_mem {α β : Type} [DecidableEq α] {l : List (α × β)} {a : α} {b : β}
    (h : lookupA l a = some b) : (a, b) ∈ l := by
  induction l with
  | nil => simp [lookupA] at h
  | cons p rest ih =>
    obtain ⟨k, v⟩ := p
    by_cases hk : k = a
    · subst hk
      simp [lookupA] at h
      simp [h]
    · simp [lookupA, hk] at h
      exact List.mem_cons_of_mem _ (ih h)

/-- Removing a slot's entries makes its lookup miss. -/
theorem lookupA_filter_ne (l : List (Nat × Str)) (slot : Nat) :
    lookupA (l.filter (fun p => p.1 ≠ slot)) slot = none := by
  induction l with
  | nil => rfl
  | cons p rest ih =>
    obtain ⟨k, v⟩ := p
    by_cases h : k = slot
    · simpa [List.filter_cons, h] using ih
    · simpa [List.filter_cons, h, lookupA] using ih

/-- With no overrides, the rendered chord names are root ++ quality. -/
theorem displayedChordNames_empty (l : List Progressions.ResolvedSlot) :
    App.displayedChordNames [] l = l.map (fun s => s.root ++ s.quality) := by
  unfold App.displayedChordNames
  have h1 : l.enum.map (fun p => p.2.root ++ (lookupA ([] : List (Nat × Str)) p.1).getD p.2.quality)
      = l.enum.map (fun p => p.2.root ++ p.2.quality) := rfl
  rw [h1]
  have h2 : (fun p : Nat × Progressions.ResolvedSlot => p.2.root ++ p.2.quality)
      = (fun s : Progressions.ResolvedSlot => s.root ++ s.quality) ∘ Prod.snd := rfl
  rw [h2, ← List.map_map, List.enum_map_snd]

/-- C8: a quality override lives only in the external per-slot map — choosing
the slot's original quality again deletes the entry instead of storing a
no-op, so after override-then-revert the map is empty and the rendered
progression equals the unaltered resolution; the template itself is never
touched (resolution is recomputed from it unchanged).  The scenario's
alteration "7b9" is available for original quality "7". -/
theorem c8_alteration_override_contract :
    (∀ alter slot origq, lookupA (App.clickAlteration alter slot origq origq) slot = none) ∧
    (∀ slot origq q,
        App.clickAlteration (App.clickAlteration [] slot origq q) slot origq origq = []) ∧
    (∀ p key slot origq q,
        App.displayedChordNames
            (App.clickAlteration (App.clickAlteration [] slot origq q) slot origq origq)
            (Progressions.resolveProgression p key) =
          (Progressions.resolveProgression p key).map Progressions.ResolvedSlot.chordName) ∧
    "7b9".data ∈ Progressions.getAlterations "7".data := by
  have hrevert : ∀ slot origq q,
      App.clickAlteration (App.clickAlteration [] slot origq q) slot origq origq = [] := by
    intro slot origq q
    by_cases hq : q = origq
    · simp [App.clickAlteration, App.setAlteration, App.deleteAlteration, hq]
    · simp [App.clickAlteration, App.setAlteration, App.deleteAlteration, hq]
  refine ⟨fun alter slot origq => ?_, hrevert, fun p key slot origq q => ?_, by decide⟩
  · simp only [App.clickAlteration, if_pos rfl]
    exact lookupA_filter_ne alter slot
  · rw [hrevert, displayedChordNames_empty]
    exact List.map_congr_left
      (fun s hs => ((resolveProgression_slot_spec p key s hs).1).symm)

/-- The root token produced by `rootTokenOf` is a single (uppercased)
character, optionally followed by `'#'` or `'b'`. -/
theorem rootTokenOf_shape (input tok rest : Str)
    (h : ChordSearch.rootTokenOf input = some (tok, rest)) :
    tok.length = 1 ∨ tok.get? 1 = some '#' ∨ tok.get? 1 = some 'b' := by
  unfold ChordSearch.rootTokenOf at h
  cases ht : trimStr input with
  | nil => rw [ht] at h; exact absurd h (by simp [ChordSearch.rootTokenAux])
  | cons c r =>
    rw [ht] at h
    cases r with
    | nil =>
      simp only [ChordSearch.rootTokenAux, Option.some.injEq, Prod.mk.injEq] at h
      exact Or.inl (by simp [← h.1])
    | cons m r2 =>
      simp only [ChordSearch.rootTokenAux] at h
      by_cases h1 : m = '#' ∨ m = '♯'
      · rw [if_pos h1] at h
        simp only [Option.some.injEq, Prod.mk.injEq] at h
        exact Or.inr (Or.inl (by rw [← h.1]; rfl))
      · rw [if_neg h1] at h
        by_cases h2 : m = 'b' ∨ m = '♭'
        · rw [if_pos h2] at h
          simp only [Option.some.injEq, Prod.mk.injEq] at h
          exact Or.inr (Or.inr (by rw [← h.1]; rfl))
        · rw [if_neg h2] at h
          simp only [Option.some.injEq, Prod.mk.injEq] at h
          exact Or.inl (by simp [← h.1])

/-- Every `NOTE_ALIASES` entry whose key has the shape produced by root
extraction maps to the canonical flat spelling of the key's pitch class. -/
theorem noteAliases_pitch_fact :
    ∀ p ∈ ChordSearch.NOTE_ALIASES,
      (p.1.length = 1 ∨ p.1.get? 1 = some '#' ∨ p.1.get? 1 = some 'b') →
      ∃ pc ∈ List.range 12,
        lookupA ReverseLookup.NOTE_TO_PITCH_CLASS p.1 = some pc ∧
        lookupA ReverseLookup.NOTE_TO_PITCH_CLASS p.2 = some pc ∧
        ReverseLookup.pcToNote pc = p.2 := by decide

/-- C5: whenever `parseChordName` succeeds, the returned root is the
flat-preferred display spelling of the pitch class of the extracted root
token; in particular `parseChordName "F#m7"` returns root "Gb" with quality
"m7". -/
theorem c5_parse_root_flat_canonical :
    (∀ chordData input r q,
        ChordSearch.parseChordName chordData input = some (r, q) →
        ∃ pc, pc < 12 ∧ r = ReverseLookup.pcToNote pc ∧
          lookupA ReverseLookup.NOTE_TO_PITCH_CLASS r = some pc ∧
          ∃ tok rest, ChordSearch.rootTokenOf input = some (tok, rest) ∧
            lookupA ReverseLookup.NOTE_TO_PITCH_CLASS tok = some pc) ∧
    (∀ chordData, ChordSearch.parseChordName chordData "F#m7".data =
        some ("Gb".data, "m7".data)) := by
  constructor
  · intro chordData input r q h
    unfold ChordSearch.parseChordName at h
    split at h
    · exact absurd h (by simp)
    · next tok rest hrt =>
      split at h
      · exact absurd h (by simp)
      · next root hla =>
        simp only [Option.some.injEq, Prod.mk.injEq] at h
        obtain ⟨hroot, _⟩ := h
        obtain ⟨pc, hpcr, hk, hv, hdisp⟩ :=
          noteAliases_pitch_fact (tok, root) (lookupA_mem hla)
            (rootTokenOf_shape input tok rest hrt)
        dsimp only at hk hv hdisp
        exact ⟨pc, List.mem_range.1 hpcr, by rw [← hroot, ← hdisp],
          by rw [← hroot]; exact hv, tok, rest, hrt, hk⟩
  · intro chordData
    rfl

/-- C5 witness: the general statement applied to the concrete parse of
"F#m7". -/
theorem c5_parse_root_flat_canonical_witness :
    ∃ pc, pc < 12 ∧ "Gb".data = ReverseLookup.pcToNote pc ∧
      lookupA ReverseLookup.NOTE_TO_PITCH_CLASS "Gb".data = some pc ∧
      ∃ tok rest, ChordSearch.rootTokenOf "F#m7".data = some (tok, rest) ∧
        lookupA ReverseLookup.NOTE_TO_PITCH_CLASS tok = some pc :=
  c5_parse_root_flat_canonical.1 none "F#m7".data "Gb".data "m7".data
    (c5_parse_root_flat_canonical.2 none)

/-- C4: for every root of the display-key list and every quality of the
(spec-modelled) database vocabulary, parsing the displayed chord name
(display root concatenated with the displayed quality, "" for plain major)
returns exactly that root and quality. -/
theorem c4_parse_roundtrip :
    ∀ root ∈ ChordSearch.DISPLAY_KEYS, ∀ q ∈ specDbSuffixes,
      ChordSearch.parseChordName (some specDb)
          (root ++ (if q = "major".data then [] else q)) = some (root, q) := by
  decide

/-- C4 witness: the round trip at root "Db" and quality "m7b5". -/
theorem c4_parse_roundtrip_witness :
    ChordSearch.parseChordName (some specDb) "Dbm7b5".data =
      some ("Db".data, "m7b5".data) :=
  c4_parse_roundtrip "Db".data (by decide) "m7b5".data (by decide)

/-- A suffix accepted by `suffixMatches` is (case-insensitively) a
prefix-extension of the raw typed suffix, and is minor-family whenever the
raw suffix triggers the irregular minor rule. -/
theorem suffixMatches_implies (db raw : Str) (h : ChordSearch.suffixMatches db raw = true) :
    startsWith (lowerStr db) (lowerStr raw) = true ∧ (minorishRaw raw → minorFamily db) := by
  unfold ChordSearch.suffixMatches at h
  by_cases hr : raw = []
  · subst hr
    refine ⟨?_, fun hm => absurd rfl hm.1⟩
    simp [lowerStr, startsWith, List.isPrefixOf]
  · rw [if_neg hr] at h
    by_cases hmr : lowerStr raw = "m".data ∨
        (startsWith (lowerStr raw) "m".data ∧ ¬ startsWith (lowerStr raw) "ma".data)
    · rw [if_pos hmr] at h
      by_cases hdb : lowerStr db = "minor".data ∨
          (startsWith (lowerStr db) "m".data ∧ ¬ startsWith (lowerStr db) "maj".data)
      · rw [if_pos hdb] at h
        refine ⟨?_, fun _ => hdb⟩
        by_cases hm : lowerStr raw = "m".data
        · rw [if_pos hm] at h
          rw [hm]
          simp only [decide_eq_true_eq] at h
          rcases h with h | h
          · rw [h]; decide
          · exact h
        · rw [if_neg hm] at h
          simp only [decide_eq_true_eq] at h
          rcases h with h | h
          · exact h
          · exact absurd h.2 hm
      · rw [if_neg hdb] at h
        exact absurd h (by simp)
    · rw [if_neg hmr] at h
      exact ⟨h, fun hm => absurd hm.2 hmr⟩

/-- C7: `getSuggestions` returns at most 10 names; every returned name is the
parsed root concatenated with the displayed suffix of a database chord of that
root whose quality is a case-insensitive prefix extension of the raw typed
suffix, and when the raw suffix is "m"-but-not-"ma…" only minor-family
qualities pass; in particular every suggestion for "Dm" is "D" plus a
minor-family suffix. -/
theorem c7_suggestions :
    (∀ chordData part, (ChordSearch.getSuggestions chordData part).length ≤ 10) ∧
    (∀ chordData part name, name ∈ ChordSearch.getSuggestions chordData part →
        ∃ cd root q keyChords c,
          chordData = some cd ∧
          ChordSearch.parseChordName chordData part = some (root, q) ∧
          lookupA cd.chords ((lookupA ChordSearch.DATABASE_KEY_MAP root).getD root) =
            some keyChords ∧
          c ∈ keyChords ∧
          name = root ++ (if c.suffix = "major".data then [] else c.suffix) ∧
          startsWith (lowerStr c.suffix) (lowerStr (ChordSearch.rawSuffixOf part)) = true ∧
          (minorishRaw (ChordSearch.rawSuffixOf part) → minorFamily c.suffix)) ∧
    (∀ chordData name, name ∈ ChordSearch.getSuggestions chordData "Dm".data →
        ∃ s, name = "D".data ++ s ∧ minorFamily s) := by
  have hmain : ∀ chordData part name, name ∈ ChordSearch.getSuggestions chordData part →
      ∃ cd root q keyChords c,
        chordData = some cd ∧
        ChordSearch.parseChordName chordData part = some (root, q) ∧
        lookupA cd.chords ((lookupA ChordSearch.DATABASE_KEY_MAP root).getD root) =
          some keyChords ∧
        c ∈ keyChords ∧
        name = root ++ (if c.suffix = "major".data then [] else c.suffix) ∧
        startsWith (lowerStr c.suffix) (lowerStr (ChordSearch.rawSuffixOf part)) = true ∧
        (minorishRaw (ChordSearch.rawSuffixOf part) → minorFamily c.suffix) := by
    intro chordData part name hname
    unfold ChordSearch.getSuggestions at hname
    split at hname
    · exact absurd hname (by simp)
    · next cd =>
      by_cases hp : part = []
      · rw [if_pos hp] at hname
        exact absurd hname (by simp)
      · rw [if_neg hp] at hname
        split at hname
        · exact absurd hname (by simp)
        · next root q hpr =>
          split at hname
          · exact absurd hname (by simp)
          · next keyChords hkc =>
            have hname2 := List.mem_of_mem_take hname
            obtain ⟨c, hcf, rfl⟩ := List.mem_map.1 hname2
            obtain ⟨hck, hsm⟩ := List.mem_filter.1 hcf
            obtain ⟨hpre, hfam⟩ := suffixMatches_implies c.suffix (ChordSearch.rawSuffixOf part) hsm
            exact ⟨cd, root, q, keyChords, c, rfl, hpr, hkc, hck, rfl, hpre, hfam⟩
  refine ⟨fun chordData part => ?_, hmain, fun chordData name hname => ?_⟩
  · unfold ChordSearch.getSuggestions
    split
    · simp
    · next cd =>
      by_cases hp : part = []
      · simp [hp]
      · rw [if_neg hp]
        split
        · simp
        · next root q hpr =>
          split
          · simp
          · next keyChords hkc => exact List.length_take_le _ _
  · obtain ⟨cd, root, q, keyChords, c, hcd, hpr, hkc, hck, hn, hpre, hfam⟩ :=
      hmain chordData "Dm".data name hname
    subst hcd
    have hconc : ChordSearch.parseChordName (some cd) "Dm".data =
        some ("D".data, "minor".data) := rfl
    rw [hconc] at hpr
    have hroot : root = "D".data := by
      have := Option.some.inj hpr
      exact ((Prod.mk.injEq _ _ _ _ ▸ this).1).symm
    have hfam2 : minorFamily c.suffix := hfam (by decide)
    by_cases hmaj : c.suffix = "major".data
    · rw [hmaj] at hfam2
      exact absurd hfam2 (by decide)
    · refine ⟨c.suffix, ?_, hfam2⟩
      rw [hn, hroot, if_neg hmaj]

/-- C7 witness: the bound and the "Dm" scenario at a concrete database where
"Dminor" is suggested. -/
theorem c7_suggestions_witness :
    (ChordSearch.getSuggestions (some dbSuggest) "Dm".data).length ≤ 10 ∧
    (∃ s, "Dminor".data = "D".data ++ s ∧ minorFamily s) :=
  ⟨c7_suggestions.1 (some dbSuggest) "Dm".data,
   c7_suggestions.2.2 (some dbSuggest) "Dminor".data (by decide)⟩

/-- C9 counterexample: on the run "DBC" the scanner takes the "b" as a flat
(the following character "C" is a letter A–G, but the preceding letter "D"
accepts a flat), producing ["Db","C"]; the claim's rule — flat only when the
following character is not a letter A–G or is end-of-string, and the
preceding letter accepts a flat — would instead treat it as the separate
note B, producing ["D","B","C"]. -/
theorem c9_condensed_flat_counterexample :
    ReverseLookup.parseCondensedNotes "DBC".data = ["Db".data, "C".data] ∧
    claimCondensedScan "DBC".data = ["D".data, "B".data, "C".data] := by
  decide

/-- C9 (amended): a "b" after a note letter is taken as a flat modifier
exactly when the following character exists and is not a letter A–G, or the
preceding letter accepts a flat (D, E, G, A, B); otherwise it is treated as
the separate note B.  Illustrated on "DBC", "CB" and "CB1". -/
theorem c9_condensed_flat_rule :
    (∀ c next2, ReverseLookup.flatDecision c next2 =
        ((match next2 with
          | some d => !ReverseLookup.isLetterAGi d
          | none => false) || ReverseLookup.acceptsFlat c)) ∧
    ReverseLookup.parseCondensedNotes "DBC".data = ["Db".data, "C".data] ∧
    ReverseLookup.parseCondensedNotes "CB".data = ["C".data, "B".data] ∧
    ReverseLookup.parseCondensedNotes "CB1".data = ["Cb".data] := by
  refine ⟨fun c next2 => ?_, by decide, by decide, by decide⟩
  cases next2 with
  | none => simp [ReverseLookup.flatDecision]
  | some d =>
    unfold ReverseLookup.flatDecision
    cases hAG : ReverseLookup.isLetterAGi d <;> simp [hAG]

/-- C6 counterexample: the voicing `posB2` in C major sounds a note at
semitone distance 1 from the root; no major-formula token matches and no
priority-list entry has semitone class 1, so the claim's rule demands a
`null` label — but the code labels the string "b2" (the first table interval
of that class). -/
theorem c6_degree_fallback_counterexample :
    ChordDegrees.firstFormulaMatch (ChordDegrees.formulaOf "major".data) 1 = none ∧
    priorityFirst 1 = none ∧
    ChordDegrees.calculateIntervals posB2 "C".data "major".data =
      [some "b2".data, none, none, none, none, none] := by
  decide

/-- `scanStrings` yields exactly one entry per requested string. -/
theorem scanStrings_length (rootPC : Nat) (formula : List Str) :
    ∀ n frets midi, (ChordDegrees.scanStrings rootPC formula n frets midi).length = n := by
  intro n
  induction n with
  | zero => intro frets midi; rfl
  | succ k ih =>
    intro frets midi
    cases frets with
    | nil =>
      cases midi with
      | nil => simp [ChordDegrees.scanStrings, ih]
      | cons m ms => simp [ChordDegrees.scanStrings, ih]
    | cons f fs =>
      by_cases hf : f = -1
      · simp [ChordDegrees.scanStrings, hf, ih]
      · cases midi with
        | nil => simp [ChordDegrees.scanStrings, hf, ih]
        | cons m ms => simp [ChordDegrees.scanStrings, hf, ih]

/-- A muted string always receives `none`, wherever it sits. -/
theorem scanStrings_get_muted (rootPC : Nat) (formula : List Str) :
    ∀ n frets midi i, i < n → List.get? frets i = some (-1) →
      (ChordDegrees.scanStrings rootPC formula n frets midi).get? i = some none := by
  intro n
  induction n with
  | zero => intro frets midi i hi; omega
  | succ k ih =>
    intro frets midi i hi hf
    cases frets with
    | nil => simp at hf
    | cons f fs =>
      cases i with
      | zero =>
        simp only [List.get?] at hf
        have hf2 : f = -1 := by exact_mod_cast Option.some.inj hf
        simp [ChordDegrees.scanStrings, hf2]
      | succ j =>
        simp only [List.get?] at hf
        have hj : j < k := by omega
        by_cases hf0 : f = -1
        · simp only [ChordDegrees.scanStrings, hf0, if_pos rfl]
          simpa using ih fs midi j hj hf
        · cases midi with
          | nil =>
            simp only [ChordDegrees.scanStrings, hf0, if_neg hf0]
            simpa using ih fs [] j hj hf
          | cons m ms =>
            simp only [ChordDegrees.scanStrings, hf0, if_neg hf0]
            simpa using ih fs ms j hj hf

/-- With no frets listed, every string slot counts as non-muted. -/
theorem countSB_nil : ∀ i, ChordDegrees.countSB [] i = i := by
  intro i
  cases i <;> rfl

/-- A non-muted string consumes the next MIDI note (counted by `countSB`) and
is labelled through `findIntervalFromFormula`; an exhausted MIDI array gives
`none`. -/
theorem scanStrings_get_sounding (rootPC : Nat) (formula : List Str) :
    ∀ n frets midi i, i < n → List.get? frets i ≠ some (-1) →
      (ChordDegrees.scanStrings rootPC formula n frets midi).get? i =
        some ((midi.get? (ChordDegrees.countSB frets i)).bind
          (fun m => ChordDegrees.findIntervalFromFormula ((m % 12 + 12 - rootPC) % 12) formula)) := by
  intro n
  induction n with
  | zero => intro frets midi i hi; omega
  | succ k ih =>
    intro frets midi i hi hf
    cases frets with
    | nil =>
      cases i with
      | zero =>
        cases midi with
        | nil => simp [ChordDegrees.scanStrings, ChordDegrees.countSB]
        | cons m ms => simp [ChordDegrees.scanStrings, ChordDegrees.countSB]
      | succ j =>
        have hj : j < k := by omega
        have hfj : List.get? ([] : List Int) j ≠ some (-1) := by simp
        cases midi with
        | nil =>
          have := ih [] [] j hj hfj
          simp only [ChordDegrees.scanStrings]
          simpa [countSB_nil] using this
        | cons m ms =>
          have := ih [] ms j hj hfj
          simp only [ChordDegrees.scanStrings]
          simpa [countSB_nil] using this
    | cons f fs =>
      cases i with
      | zero =>
        have hf2 : ¬ f = -1 := fun he => hf (by simp [he])
        cases midi with
        | nil => simp [ChordDegrees.scanStrings, hf2, ChordDegrees.countSB]
        | cons m ms => simp [ChordDegrees.scanStrings, hf2, ChordDegrees.countSB]
      | succ j =>
        simp only [List.get?] at hf
        have hj : j < k := by omega
        by_cases hf0 : f = -1
        · have := ih fs midi j hj hf
          simp only [ChordDegrees.scanStrings, hf0, if_pos rfl]
          simpa [ChordDegrees.countSB, hf0] using this
        · cases midi with
          | nil =>
            have := ih fs [] j hj hf
            simp only [ChordDegrees.scanStrings, hf0, if_neg hf0]
            simpa [ChordDegrees.countSB, hf0] using this
          | cons m ms =>
            have := ih fs ms j hj hf
            simp only [ChordDegrees.scanStrings, hf0, if_neg hf0]
            simpa [ChordDegrees.countSB, hf0, Nat.add_comm 1 (ChordDegrees.countSB fs j)]
              using this

/-- C6 (amended): the label array has exactly one entry per string in string
order; muted strings get `null`; a sounding string with an available MIDI
note is labelled by the first matching formula token, else the first
priority-list entry of that semitone class, else the first table interval of
that class — so a sounding note with an available MIDI entry is never
unlabelled, and `null` arises only from muted strings or an exhausted MIDI
array. -/
theorem c6_degree_labels (position : Position) (rootKey suffix : Str) :
    (ChordDegrees.calculateIntervals position rootKey suffix).length = 6 ∧
    (∀ i, i < 6 → List.get? position.frets i = some (-1) →
        (ChordDegrees.calculateIntervals position rootKey suffix).get? i = some none) ∧
    (∀ i, i < 6 → position.midi ≠ [] → List.get? position.frets i ≠ some (-1) →
        (ChordDegrees.calculateIntervals position rootKey suffix).get? i =
          some ((position.midi.get? (ChordDegrees.countSB position.frets i)).bind
            (fun m => ChordDegrees.findIntervalFromFormula
              ((m % 12 + 12 - ChordDegrees.getRootPitchClass rootKey) % 12)
              (ChordDegrees.formulaOf suffix)))) ∧
    (∀ s formula, s < 12 → ChordDegrees.findIntervalFromFormula s formula ≠ none) ∧
    (∀ s formula t, ChordDegrees.firstFormulaMatch formula s = some t →
        ChordDegrees.findIntervalFromFormula s formula = some t) ∧
    (∀ s formula, s < 12 → ChordDegrees.firstFormulaMatch formula s = none →
        ChordDegrees.findIntervalFromFormula s formula =
          (match priorityFirst s with
           | some p => some p
           | none => tableFirst s)) := by
  refine ⟨?_, fun i hi hf => ?_, fun i hi hm hf => ?_,
    fun s formula hs => ?_, fun s formula t ht => ?_, fun s formula hs hnf => ?_⟩
  · unfold ChordDegrees.calculateIntervals
    by_cases hm : position.midi = []
    · simp [hm]
    · simp [hm, scanStrings_length]
  · unfold ChordDegrees.calculateIntervals
    by_cases hm : position.midi = []
    · rw [if_pos hm]
      interval_cases i <;> rfl
    · rw [if_neg hm]
      exact scanStrings_get_muted _ _ 6 position.frets position.midi i hi hf
  · unfold ChordDegrees.calculateIntervals
    rw [if_neg hm]
    exact scanStrings_get_sounding _ _ 6 position.frets position.midi i hi hf
  · unfold ChordDegrees.findIntervalFromFormula
    cases hff : ChordDegrees.firstFormulaMatch formula s with
    | some t => simp
    | none =>
      simp only []
      interval_cases s <;> decide
  · simp [ChordDegrees.findIntervalFromFormula, ht]
  · unfold ChordDegrees.findIntervalFromFormula
    rw [hnf]
    interval_cases s <;> decide

/-- C6 witness: the amended statement applied to the concrete voicing
`posB2` in C major — string 1 is muted, string 0 sounds pitch distance 1 and
receives a label. -/
theorem c6_degree_labels_witness :
    (ChordDegrees.calculateIntervals posB2 "C".data "major".data).get? 1 = some none ∧
    (ChordDegrees.calculateIntervals posB2 "C".data "major".data).get? 0 =
      some ((posB2.midi.get? (ChordDegrees.countSB posB2.frets 0)).bind
        (fun m => ChordDegrees.findIntervalFromFormula
          ((m % 12 + 12 - ChordDegrees.getRootPitchClass "C".data) % 12)
          (ChordDegrees.formulaOf "major".data))) ∧
    ChordDegrees.findIntervalFromFormula 1 (ChordDegrees.formulaOf "major".data) ≠ none :=
  ⟨(c6_degree_labels posB2 "C".data "major".data).2.1 1 (by decide) (by decide),
   (c6_degree_labels posB2 "C".data "major".data).2.2.1 0 (by decide) (by decide) (by decide),
   (c6_degree_labels posB2 "C".data "major".data).2.2.2.1 1 _ (by decide)⟩

/-- `dedupKF` keeps exactly the elements of its input. -/
theorem mem_dedupKF (x : Nat) : ∀ l : List Nat, x ∈ ReverseLookup.dedupKF l ↔ x ∈ l := by
  intro l
  induction l with
  | nil => simp [ReverseLookup.dedupKF]
  | cons a as ih =>
    simp only [ReverseLookup.dedupKF, List.mem_cons, List.mem_filter, ih]
    constructor
    · rintro (rfl | ⟨hx, _⟩)
      · exact Or.inl rfl
      · exact Or.inr hx
    · rintro (rfl | hx2)
      · exact Or.inl rfl
      · by_cases hxa : x = a
        · exact Or.inl hxa
        · exact Or.inr ⟨hx2, by simpa using hxa⟩

/-- `dedupKF` produces a duplicate-free list. -/
theorem dedupKF_nodup : ∀ l : List Nat, (ReverseLookup.dedupKF l).Nodup := by
  intro l
  induction l with
  | nil => simp [ReverseLookup.dedupKF]
  | cons a as ih =>
    simp only [ReverseLookup.dedupKF, List.nodup_cons]
    refine ⟨fun hmem => ?_, List.Nodup.filter _ ih⟩
    have := (List.mem_filter.1 hmem).2
    simp at this

/-- `dedupKF` fixes duplicate-free lists. -/
theorem dedupKF_eq_self : ∀ l : List Nat, l.Nodup → ReverseLookup.dedupKF l = l := by
  intro l
  induction l with
  | nil => intro _; rfl
  | cons a as ih =>
    intro hnd
    rcases List.nodup_cons.1 hnd with ⟨ha, hnd2⟩
    simp only [ReverseLookup.dedupKF, ih hnd2, List.cons.injEq, true_and]
    exact List.filter_eq_self.2 (fun x hx => by
      simp only [ne_eq, decide_eq_true_eq]
      exact fun hxa => ha (hxa ▸ hx))

/-- Membership in `midiToPitchClasses`. -/
theorem mem_midiToPitchClasses (x : Nat) (midi : List Nat) :
    x ∈ ReverseLookup.midiToPitchClasses midi ↔ ∃ m ∈ midi, m % 12 = x := by
  unfold ReverseLookup.midiToPitchClasses
  rw [(List.perm_insertionSort _ _).mem_iff, mem_dedupKF]
  simp

/-- `midiToPitchClasses` is sorted ascending. -/
theorem midiToPitchClasses_sorted (midi : List Nat) :
    List.Sorted (· ≤ ·) (ReverseLookup.midiToPitchClasses midi) :=
  List.sorted_insertionSort _ _

/-- `midiToPitchClasses` is duplicate-free. -/
theorem midiToPitchClasses_nodup (midi : List Nat) :
    (ReverseLookup.midiToPitchClasses midi).Nodup :=
  ((List.perm_insertionSort _ _).nodup_iff).2 (dedupKF_nodup _)

/-- `midiToPitchClasses` values are pitch classes. -/
theorem midiToPitchClasses_lt (midi : List Nat) :
    ∀ x ∈ ReverseLookup.midiToPitchClasses midi, x < 12 := by
  intro x hx
  obtain ⟨m, _, rfl⟩ := (mem_midiToPitchClasses x midi).1 hx
  omega

/-- A sounding voicing has a non-empty pitch-class set. -/
theorem midiToPitchClasses_ne_nil (midi : List Nat) (h : midi ≠ []) :
    ReverseLookup.midiToPitchClasses midi ≠ [] := by
  cases midi with
  | nil => exact absurd rfl h
  | cons m ms =>
    intro hcon
    have : m % 12 ∈ ReverseLookup.midiToPitchClasses (m :: ms) :=
      (mem_midiToPitchClasses _ _).2 ⟨m, List.mem_cons_self _ _, rfl⟩
    rw [hcon] at this
    simp at this

/-- `sortStr` is a permutation, so membership is preserved. -/
theorem mem_sortStr (m : Str) (l : List Str) :
    m ∈ ReverseLookup.sortStr l ↔ m ∈ l :=
  (List.perm_insertionSort _ l).mem_iff

/-- A separator-free string splits to itself. -/
theorem splitP_sepfree (p : Char → Bool) : ∀ t : Str, (∀ c ∈ t, p c = false) →
    splitP p t = [t] := by
  intro t
  induction t with
  | nil => intro _; rfl
  | cons c cs ih =>
    intro h
    have hc : p c = false := h c (List.mem_cons_self _ _)
    have hcs := ih (fun d hd => h d (List.mem_cons_of_mem _ hd))
    simp [splitP, hc, hcs]

/-- Splitting a separator-free token followed by one separator peels the
token. -/
theorem splitP_token_sep (p : Char → Bool) (sep : Char) (hsep : p sep = true) :
    ∀ (t rest : Str), (∀ c ∈ t, p c = false) →
      splitP p (t ++ sep :: rest) = t :: splitP p rest := by
  intro t
  induction t with
  | nil => intro rest _; simp [splitP, hsep]
  | cons c cs ih =>
    intro rest h
    have hc : p c = false := h c (List.mem_cons_self _ _)
    have hcs := ih rest (fun d hd => h d (List.mem_cons_of_mem _ hd))
    simp [splitP, hc, hcs]

/-- Characters of a space-join come from the tokens or are the space. -/
theorem mem_joinSpace (c : Char) : ∀ ts : List Str, c ∈ joinSpace ts →
    c = ' ' ∨ ∃ t ∈ ts, c ∈ t := by
  intro ts
  induction ts with
  | nil => intro h; simp [joinSpace] at h
  | cons t rest ih =>
    cases rest with
    | nil =>
      intro h
      simp only [joinSpace] at h
      exact Or.inr ⟨t, List.mem_cons_self _ _, h⟩
    | cons t2 r2 =>
      intro h
      have hj : joinSpace (t :: t2 :: r2) = t ++ ' ' :: joinSpace (t2 :: r2) := rfl
      rw [hj] at h
      rcases List.mem_append.1 h with h1 | h2
      · exact Or.inr ⟨t, List.mem_cons_self _ _, h1⟩
      · rcases List.mem_cons.1 h2 with rfl | h3
        · exact Or.inl rfl
        · rcases ih h3 with h4 | ⟨t3, ht3, hc3⟩
          · exact Or.inl h4
          · exact Or.inr ⟨t3, List.mem_cons_of_mem _ ht3, hc3⟩

/-- A space-join of non-empty tokens ends in a character of its last token. -/
theorem joinSpace_last_decomp : ∀ ts : List Str, ts ≠ [] → (∀ t ∈ ts, t ≠ []) →
    ∃ l0 c, joinSpace ts = l0 ++ [c] ∧ ∃ t ∈ ts, c ∈ t := by
  intro ts
  induction ts with
  | nil => intro h _; exact absurd rfl h
  | cons t rest ih =>
    intro _ hne
    cases rest with
    | nil =>
      rcases List.eq_nil_or_concat t with rfl | ⟨l0, c, rfl⟩
      · exact absurd rfl (hne [] (List.mem_cons_self _ _))
      · exact ⟨l0, c, by simp [joinSpace, List.concat_eq_append],
          l0.concat c, List.mem_cons_self _ _, by simp⟩
    | cons t2 r2 =>
      obtain ⟨l0, c, hj, t3, ht3, hc3⟩ := ih (by simp)
        (fun u hu => hne u (List.mem_cons_of_mem _ hu))
      refine ⟨t ++ ' ' :: l0, c, ?_, t3, List.mem_cons_of_mem _ ht3, hc3⟩
      have hj2 : joinSpace (t :: t2 :: r2) = t ++ ' ' :: joinSpace (t2 :: r2) := rfl
      rw [hj2, hj]
      simp

/-- Trimming fixes a string with non-whitespace edges. -/
theorem trimStr_eq_self (l : Str) (hh : ∀ c, l.head? = some c → ¬ c.isWhitespace)
    (hl : ∀ c, l.getLast? = some c → ¬ c.isWhitespace) : trimStr l = l := by
  unfold trimStr dropLeadWS
  have h1 : l.dropWhile Char.isWhitespace = l := by
    cases l with
    | nil => rfl
    | cons c cs =>
      rw [List.dropWhile_cons]
      simp [hh c rfl]
  rw [h1]
  have h2 : l.reverse.dropWhile Char.isWhitespace = l.reverse := by
    cases hrev : l.reverse with
    | nil => rfl
    | cons c cs =>
      have hlc : l = cs.reverse ++ [c] := by
        have := congrArg List.reverse hrev
        simpa using this
      have hg : l.getLast? = some c := by
        rw [hlc]
        exact List.getLast?_append_cons cs.reverse c []
      rw [List.dropWhile_cons]
      simp [hl c hg]
  rw [h2, List.reverse_reverse]

/-- Uppercasing distributes over a space-join. -/
theorem upperStr_joinSpace : ∀ ts : List Str,
    upperStr (joinSpace ts) = joinSpace (ts.map upperStr) := by
  intro ts
  induction ts with
  | nil => rfl
  | cons t rest ih =>
    cases rest with
    | nil => rfl
    | cons t2 r2 =>
      have hj : joinSpace (t :: t2 :: r2) = t ++ ' ' :: joinSpace (t2 :: r2) := rfl
      have hj2 : joinSpace (upperStr t :: upperStr t2 :: List.map upperStr r2) =
          upperStr t ++ ' ' :: joinSpace (upperStr t2 :: List.map upperStr r2) := rfl
      simp only [List.map_cons] at ih ⊢
      rw [hj, hj2, ← ih]
      have hsp : ' '.toUpper = ' ' := rfl
      simp [upperStr, hsp]

/-- Splitting a space-join of non-empty whitespace-free tokens recovers the
tokens. -/
theorem splitP_joinSpace : ∀ ts : List Str, ts ≠ [] →
    (∀ t ∈ ts, t ≠ [] ∧ ∀ c ∈ t, c.isWhitespace = false) →
    splitP (fun c => c.isWhitespace) (joinSpace ts) = ts := by
  intro ts
  induction ts with
  | nil => intro h _; exact absurd rfl h
  | cons t rest ih =>
    intro _ hgood
    cases rest with
    | nil =>
      have := (hgood t (List.mem_cons_self _ _)).2
      exact splitP_sepfree _ t this
    | cons t2 r2 =>
      have hj : joinSpace (t :: t2 :: r2) = t ++ ' ' :: joinSpace (t2 :: r2) := rfl
      rw [hj, splitP_token_sep _ ' ' (by decide) t _ (hgood t (List.mem_cons_self _ _)).2]
      rw [ih (by simp) (fun u hu => hgood u (List.mem_cons_of_mem _ hu))]

/-- The twelve display note names: non-empty, and every character (also after
uppercasing) is neither whitespace nor a comma. -/
theorem pcNote_good_fin :
    ∀ pc : Fin 12, ReverseLookup.pcToNote pc.1 ≠ [] ∧
      ∀ c ∈ ReverseLookup.pcToNote pc.1,
        c.isWhitespace = false ∧ (c.toUpper).isWhitespace = false ∧ c.toUpper ≠ ',' := by
  decide

/-- `pcNote_good_fin` over `Nat`. -/
theorem pcNote_good_nat (pc : Nat) (h : pc < 12) :
    ReverseLookup.pcToNote pc ≠ [] ∧
      ∀ c ∈ ReverseLookup.pcToNote pc,
        c.isWhitespace = false ∧ (c.toUpper).isWhitespace = false ∧ c.toUpper ≠ ',' :=
  pcNote_good_fin ⟨pc, h⟩

/-- Each uppercased display note name normalizes back to its pitch class. -/
theorem pcNote_parse_fin :
    ∀ pc : Fin 12,
      (ReverseLookup.normalizeNoteName (upperStr (ReverseLookup.pcToNote pc.1))).bind
        (lookupA ReverseLookup.NOTE_TO_PITCH_CLASS) = some pc.1 := by
  decide

/-- `pcNote_parse_fin` over `Nat`. -/
theorem pcNote_parse_nat (pc : Nat) (h : pc < 12) :
    (ReverseLookup.normalizeNoteName (upperStr (ReverseLookup.pcToNote pc))).bind
      (lookupA ReverseLookup.NOTE_TO_PITCH_CLASS) = some pc :=
  pcNote_parse_fin ⟨pc, h⟩

/-- A single note name round-trips through `parseNoteInput` (condensed-run
path). -/
theorem pcNote_single_fin :
    ∀ pc : Fin 12,
      ReverseLookup.parseNoteInput (noteNamesOf [pc.1]) = some [pc.1] := by
  decide

/-- `pcNote_single_fin` over `Nat`. -/
theorem pcNote_single_nat (pc : Nat) (h : pc < 12) :
    ReverseLookup.parseNoteInput (noteNamesOf [pc]) = some [pc] :=
  pcNote_single_fin ⟨pc, h⟩

/-- Collecting pitch classes from the uppercased display names of a
pitch-class list recovers the list. -/
theorem filterMap_names (T : List Nat) (hlt : ∀ x ∈ T, x < 12) :
    ((T.map ReverseLookup.pcToNote).map upperStr).filterMap
      (fun n => (ReverseLookup.normalizeNoteName n).bind
        (lookupA ReverseLookup.NOTE_TO_PITCH_CLASS)) = T := by
  induction T with
  | nil => rfl
  | cons a as ih =>
    have ha := pcNote_parse_nat a (hlt a (List.mem_cons_self _ _))
    have hih := ih (fun x hx => hlt x (List.mem_cons_of_mem _ hx))
    simp only [List.map_cons, List.filterMap_cons, ha]
    simpa using hih

/-- A sorted, duplicate-free, non-empty pitch-class set is recovered exactly
by parsing its space-separated display note names. -/
theorem parseNoteInput_noteNames (T : List Nat) (hne : T ≠ [])
    (hlt : ∀ x ∈ T, x < 12) (hnd : T.Nodup) (hsort : List.Sorted (· ≤ ·) T) :
    ReverseLookup.parseNoteInput (noteNamesOf T) = some T := by
  cases T with
  | nil => exact absurd rfl hne
  | cons a rest =>
    cases rest with
    | nil => exact pcNote_single_nat a (hlt a (List.mem_cons_self _ _))
    | cons b r2 =>
      have hgood : ∀ t ∈ (a :: b :: r2).map ReverseLookup.pcToNote,
          t ≠ [] ∧ ∀ c ∈ t,
            c.isWhitespace = false ∧ (c.toUpper).isWhitespace = false ∧ c.toUpper ≠ ',' := by
        intro t ht
        obtain ⟨pc, hpc, rfl⟩ := List.mem_map.1 ht
        exact pcNote_good_nat pc (hlt pc hpc)
      obtain ⟨c0, n1r, hn1⟩ : ∃ c0 n1r, ReverseLookup.pcToNote a = c0 :: n1r := by
        cases hpc : ReverseLookup.pcToNote a with
        | nil =>
          exact absurd hpc (pcNote_good_nat a (hlt a (List.mem_cons_self _ _))).1
        | cons c cs => exact ⟨c, cs, rfl⟩
      have hjoined : noteNamesOf (a :: b :: r2) =
          ReverseLookup.pcToNote a ++
            ' ' :: joinSpace ((b :: r2).map ReverseLookup.pcToNote) := rfl
      have hne2 : noteNamesOf (a :: b :: r2) ≠ [] := by
        rw [hjoined, hn1]
        simp
      have hhead : ∀ c, (noteNamesOf (a :: b :: r2)).head? = some c → ¬ c.isWhitespace := by
        intro c hc
        rw [hjoined, hn1] at hc
        simp only [List.cons_append, List.head?_cons, Option.some.injEq] at hc
        have hg := (pcNote_good_nat a (hlt a (List.mem_cons_self _ _))).2 c0
          (by rw [hn1]; exact List.mem_cons_self _ _)
        rw [← hc]
        simp [hg.1]
      have hlast : ∀ c, (noteNamesOf (a :: b :: r2)).getLast? = some c →
          ¬ c.isWhitespace := by
        obtain ⟨l0, ce, hdecomp, t3, ht3, hc3⟩ :=
          joinSpace_last_decomp ((a :: b :: r2).map ReverseLookup.pcToNote)
            (by simp) (fun t ht => (hgood t ht).1)
        intro c hc
        rw [show noteNamesOf (a :: b :: r2) =
            joinSpace ((a :: b :: r2).map ReverseLookup.pcToNote) from rfl, hdecomp] at hc
        rw [List.getLast?_append_cons] at hc
        simp only [List.getLast?_singleton, Option.some.injEq] at hc
        have hg := (hgood t3 ht3).2 ce hc3
        rw [← hc]
        simp [hg.1]
      have htrim := trimStr_eq_self _ hhead hlast
      have hupgood : ∀ t ∈ ((a :: b :: r2).map ReverseLookup.pcToNote).map upperStr,
          t ≠ [] ∧ ∀ c ∈ t, c.isWhitespace = false := by
        intro t ht
        obtain ⟨n, hn, rfl⟩ := List.mem_map.1 ht
        refine ⟨fun hemp => (hgood n hn).1 (by
          cases n with
          | nil => rfl
          | cons x xs => simp [upperStr] at hemp), ?_⟩
        intro c hcu
        obtain ⟨d, hd, rfl⟩ := List.mem_map.1 hcu
        exact ((hgood n hn).2 d hd).2.1
      have hnocomma : ¬ (',' ∈ joinSpace (((a :: b :: r2).map ReverseLookup.pcToNote).map upperStr)) := by
        intro hcm
        rcases mem_joinSpace ',' _ hcm with h1 | ⟨t, ht, hct⟩
        · exact absurd h1 (by decide)
        · obtain ⟨n, hn, rfl⟩ := List.mem_map.1 ht
          obtain ⟨d, hd, hdu⟩ := List.mem_map.1 hct
          exact ((hgood n hn).2 d hd).2.2 hdu
      have hspace : ' ' ∈ joinSpace (((a :: b :: r2).map ReverseLookup.pcToNote).map upperStr) := by
        have hj2 : joinSpace (((a :: b :: r2).map ReverseLookup.pcToNote).map upperStr) =
            upperStr (ReverseLookup.pcToNote a) ++
              ' ' :: joinSpace (((b :: r2).map ReverseLookup.pcToNote).map upperStr) := rfl
        rw [hj2]
        exact List.mem_append.2 (Or.inr (List.mem_cons_self _ _))
      show ReverseLookup.parseNoteInput (noteNamesOf (a :: b :: r2)) = some (a :: b :: r2)
      unfold ReverseLookup.parseNoteInput
      rw [if_neg hne2, htrim,
        show noteNamesOf (a :: b :: r2) =
          joinSpace ((a :: b :: r2).map ReverseLookup.pcToNote) from rfl,
        upperStr_joinSpace]
      unfold ReverseLookup.notesOf
      rw [if_neg hnocomma, if_pos hspace,
        splitP_joinSpace _ (by simp) hupgood]
      unfold ReverseLookup.collectPcs
      rw [filterMap_names _ hlt, dedupKF_eq_self _ hnd,
        if_neg (by simp : ¬ (a :: b :: r2 = ([] : List Nat))),
        List.Sorted.insertionSort_eq hsort]

/-- Looking up the key at the head of the index. -/
theorem lookupIdx_cons_self (k : List Nat) (s : List Str) (rest : List (List Nat × List Str)) :
    ReverseLookup.lookupIdx ((k, s) :: rest) k = s := by
  simp [ReverseLookup.lookupIdx]

/-- Looking up past a non-matching head entry. -/
theorem lookupIdx_cons_ne {k0 k2 : List Nat} (h : k0 ≠ k2) (s : List Str)
    (rest : List (List Nat × List Str)) :
    ReverseLookup.lookupIdx ((k0, s) :: rest) k2 = ReverseLookup.lookupIdx rest k2 := by
  simp [ReverseLookup.lookupIdx, h]

/-- Index membership after inserting one name under one key. -/
theorem mem_lookupIdx_insertIdx :
    ∀ (idx : List (List Nat × List Str)) (k : List Nat) (name : Str) (k2 : List Nat) (m : Str),
      m ∈ ReverseLookup.lookupIdx (ReverseLookup.insertIdx idx k name) k2 ↔
        m ∈ ReverseLookup.lookupIdx idx k2 ∨ (k = k2 ∧ m = name) := by
  intro idx
  induction idx with
  | nil =>
    intro k name k2 m
    simp only [ReverseLookup.insertIdx, ReverseLookup.lookupIdx]
    by_cases hk : k = k2
    · simp [hk]
    · simp [hk]
  | cons p rest ih =>
    intro k name k2 m
    obtain ⟨k0, s⟩ := p
    by_cases h0 : k0 = k
    · subst h0
      simp only [ReverseLookup.insertIdx, eq_self_iff_true, if_true]
      by_cases h2 : k0 = k2
      · subst h2
        rw [lookupIdx_cons_self, lookupIdx_cons_self]
        by_cases hns : name ∈ s
        · rw [if_pos hns]
          constructor
          · intro hm
            exact Or.inl hm
          · rintro (hm | ⟨_, rfl⟩)
            · exact hm
            · exact hns
        · rw [if_neg hns]
          constructor
          · intro hm
            rcases List.mem_append.1 hm with hm1 | hm2
            · exact Or.inl hm1
            · exact Or.inr ⟨rfl, List.mem_singleton.1 hm2⟩
          · rintro (hm | ⟨_, rfl⟩)
            · exact List.mem_append.2 (Or.inl hm)
            · exact List.mem_append.2 (Or.inr (List.mem_singleton.2 rfl))
      · rw [lookupIdx_cons_ne h2, lookupIdx_cons_ne h2]
        simp [h2]
    · simp only [ReverseLookup.insertIdx, if_neg h0]
      by_cases h2 : k0 = k2
      · subst h2
        rw [lookupIdx_cons_self, lookupIdx_cons_self]
        have hne : ¬ (k = k0) := fun he => h0 he.symm
        simp [hne]
      · rw [lookupIdx_cons_ne h2, lookupIdx_cons_ne h2]
        exact ih k name k2 m

/-- Index membership after indexing all positions of one chord. -/
theorem mem_lookupIdx_addPositions (name : Str) :
    ∀ (ps : List Position) (idx : List (List Nat × List Str)) (k2 : List Nat) (m : Str),
      m ∈ ReverseLookup.lookupIdx (ReverseLookup.addPositions name idx ps) k2 ↔
        m ∈ ReverseLookup.lookupIdx idx k2 ∨
          ∃ p ∈ ps, p.midi ≠ [] ∧ ReverseLookup.midiToPitchClasses p.midi = k2 ∧ m = name := by
  intro ps
  induction ps with
  | nil =>
    intro idx k2 m
    simp [ReverseLookup.addPositions]
  | cons p ps ih =>
    intro idx k2 m
    simp only [ReverseLookup.addPositions]
    rw [ih]
    by_cases hm : p.midi = []
    · rw [if_neg (by simp [hm])]
      constructor
      · rintro (h1 | ⟨q, hq, hqr⟩)
        · exact Or.inl h1
        · exact Or.inr ⟨q, List.mem_cons_of_mem _ hq, hqr⟩
      · rintro (h1 | ⟨q, hq, hmid, hrest⟩)
        · exact Or.inl h1
        · rcases List.mem_cons.1 hq with rfl | hq2
          · exact absurd hm hmid
          · exact Or.inr ⟨q, hq2, hmid, hrest⟩
    · rw [if_pos hm, mem_lookupIdx_insertIdx]
      constructor
      · rintro ((h1 | ⟨hk, hm2⟩) | h2)
        · exact Or.inl h1
        · exact Or.inr ⟨p, List.mem_cons_self _ _, hm, hk, hm2⟩
        · obtain ⟨q, hq, hqr⟩ := h2
          exact Or.inr ⟨q, List.mem_cons_of_mem _ hq, hqr⟩
      · rintro (h1 | ⟨q, hq, hmid, hk, hm2⟩)
        · exact Or.inl (Or.inl h1)
        · rcases List.mem_cons.1 hq with rfl | hq2
          · exact Or.inl (Or.inr ⟨hk, hm2⟩)
          · exact Or.inr ⟨q, hq2, hmid, hk, hm2⟩

/-- Index membership after indexing all chords of one root key. -/
theorem mem_lookupIdx_addChords (displayKey : Str) :
    ∀ (cs : List ChordEntry) (idx : List (List Nat × List Str)) (k2 : List Nat) (m : Str),
      m ∈ ReverseLookup.lookupIdx (ReverseLookup.addChords displayKey idx cs) k2 ↔
        m ∈ ReverseLookup.lookupIdx idx k2 ∨
          ∃ c ∈ cs, ∃ p ∈ c.positions, p.midi ≠ [] ∧
            ReverseLookup.midiToPitchClasses p.midi = k2 ∧
            m = ReverseLookup.chordNameOf displayKey c.suffix := by
  intro cs
  induction cs with
  | nil =>
    intro idx k2 m
    simp [ReverseLookup.addChords]
  | cons c cs ih =>
    intro idx k2 m
    simp only [ReverseLookup.addChords]
    rw [ih, mem_lookupIdx_addPositions]
    constructor
    · rintro ((h1 | ⟨q, hq, hmid, hk, hm2⟩) | h2)
      · exact Or.inl h1
      · exact Or.inr ⟨c, List.mem_cons_self _ _, q, hq, hmid, hk, hm2⟩
      · obtain ⟨c2, hc2, hqr⟩ := h2
        exact Or.inr ⟨c2, List.mem_cons_of_mem _ hc2, hqr⟩
    · rintro (h1 | ⟨c2, hc2, q, hq, hmid, hk, hm2⟩)
      · exact Or.inl (Or.inl h1)
      · rcases List.mem_cons.1 hc2 with rfl | hc3
        · exact Or.inl (Or.inr ⟨q, hq, hmid, hk, hm2⟩)
        · exact Or.inr ⟨c2, hc3, q, hq, hmid, hk, hm2⟩

/-- Index membership over the whole database fold. -/
theorem mem_lookupIdx_buildIndexAux :
    ∀ (entries : List (Str × List ChordEntry)) (idx : List (List Nat × List Str))
      (k2 : List Nat) (m : Str),
      m ∈ ReverseLookup.lookupIdx (ReverseLookup.buildIndexAux idx entries) k2 ↔
        m ∈ ReverseLookup.lookupIdx idx k2 ∨
          ∃ e ∈ entries, ∃ c ∈ e.2, ∃ p ∈ c.positions, p.midi ≠ [] ∧
            ReverseLookup.midiToPitchClasses p.midi = k2 ∧
            m = ReverseLookup.chordNameOf (ReverseLookup.displayKeyOf e.1) c.suffix := by
  intro entries
  induction entries with
  | nil =>
    intro idx k2 m
    simp [ReverseLookup.buildIndexAux]
  | cons e es ih =>
    intro idx k2 m
    obtain ⟨key, chords⟩ := e
    simp only [ReverseLookup.buildIndexAux]
    rw [ih, mem_lookupIdx_addChords]
    constructor
    · rintro ((h1 | ⟨c2, hc2, q, hq, hmid, hk, hm2⟩) | h2)
      · exact Or.inl h1
      · exact Or.inr ⟨(key, chords), List.mem_cons_self _ _, c2, hc2, q, hq, hmid, hk, hm2⟩
      · obtain ⟨e2, he2, hqr⟩ := h2
        exact Or.inr ⟨e2, List.mem_cons_of_mem _ he2, hqr⟩
    · rintro (h1 | ⟨e2, he2, c2, hc2, q, hq, hmid, hk, hm2⟩)
      · exact Or.inl (Or.inl h1)
      · rcases List.mem_cons.1 he2 with rfl | he3
        · exact Or.inl (Or.inr ⟨c2, hc2, q, hq, hmid, hk, hm2⟩)
        · exact Or.inr ⟨e2, he3, c2, hc2, q, hq, hmid, hk, hm2⟩

/-- Characterization of the reverse index: a chord name sits under a
pitch-class-set key exactly when some voicing of a chord with that display
name sounds exactly that set. -/
theorem mem_buildIndex (db : ChordData) (k2 : List Nat) (m : Str) :
    m ∈ ReverseLookup.lookupIdx (ReverseLookup.buildIndex db) k2 ↔
      ∃ e ∈ db.chords, ∃ c ∈ e.2, ∃ p ∈ c.positions, p.midi ≠ [] ∧
        ReverseLookup.midiToPitchClasses p.midi = k2 ∧
        m = ReverseLookup.chordNameOf (ReverseLookup.displayKeyOf e.1) c.suffix := by
  unfold ReverseLookup.buildIndex
  rw [mem_lookupIdx_buildIndexAux]
  simp [ReverseLookup.lookupIdx]

/-- The chords returned by `search` are exactly the index entry of the parsed
pitch-class set. -/
theorem mem_search_chords (db : ChordData) (input : Str) (pcs : List Nat)
    (hp : ReverseLookup.parseNoteInput input = some pcs) (m : Str) :
    m ∈ (ReverseLookup.search db input).chords ↔
      m ∈ ReverseLookup.lookupIdx (ReverseLookup.buildIndex db) pcs := by
  unfold ReverseLookup.search
  split
  · next hnone =>
    rw [hp] at hnone
    simp at hnone
  · next pcs2 hsome =>
    rw [hp] at hsome
    have hpc := Option.some.inj hsome
    subst hpc
    by_cases hempty : ReverseLookup.lookupIdx (ReverseLookup.buildIndex db) pcs = []
    · rw [if_pos hempty, hempty]
    · rw [if_neg hempty]
      exact mem_sortStr m _

/-- C1 (amended): for a database voicing sounding exactly the pitch-class set
S, querying with the note names of S returns a chord list containing that
voicing's chord name; querying with the note names of S plus one extra pitch
class x not in S returns a list not containing it, provided no voicing with
that same chord name sounds exactly S ∪ {x}. -/
theorem c1_reverse_index_exact (db : ChordData) (key : Str) (chords : List ChordEntry)
    (entry : ChordEntry) (pos : Position) (S : List Nat) (x : Nat)
    (hk : (key, chords) ∈ db.chords) (he : entry ∈ chords) (hp : pos ∈ entry.positions)
    (hm : pos.midi ≠ []) (hS : ReverseLookup.midiToPitchClasses pos.midi = S) :
    (ReverseLookup.chordNameOf (ReverseLookup.displayKeyOf key) entry.suffix ∈
        (ReverseLookup.search db (noteNamesOf S)).chords) ∧
    (x < 12 → x ∉ S →
      ¬ (∃ e ∈ db.chords, ∃ c ∈ e.2, ∃ p ∈ c.positions, p.midi ≠ [] ∧
          ReverseLookup.midiToPitchClasses p.midi = List.orderedInsert (· ≤ ·) x S ∧
          ReverseLookup.chordNameOf (ReverseLookup.displayKeyOf e.1) c.suffix =
            ReverseLookup.chordNameOf (ReverseLookup.displayKeyOf key) entry.suffix) →
      ReverseLookup.chordNameOf (ReverseLookup.displayKeyOf key) entry.suffix ∉
        (ReverseLookup.search db (noteNamesOf (List.orderedInsert (· ≤ ·) x S))).chords) := by
  have hSsort : List.Sorted (· ≤ ·) S := hS ▸ midiToPitchClasses_sorted pos.midi
  have hSnd : S.Nodup := hS ▸ midiToPitchClasses_nodup pos.midi
  have hSlt : ∀ y ∈ S, y < 12 := hS ▸ midiToPitchClasses_lt pos.midi
  have hSne : S ≠ [] := hS ▸ midiToPitchClasses_ne_nil pos.midi hm
  have hparse := parseNoteInput_noteNames S hSne hSlt hSnd hSsort
  constructor
  · rw [mem_search_chords db _ S hparse, mem_buildIndex]
    exact ⟨(key, chords), hk, entry, he, pos, hp, hm, hS, rfl⟩
  · intro hx hxS hnone hmem
    have hperm : List.Perm (List.orderedInsert (· ≤ ·) x S) (x :: S) :=
      List.perm_orderedInsert _ x S
    have hTsort : List.Sorted (· ≤ ·) (List.orderedInsert (· ≤ ·) x S) :=
      List.Sorted.orderedInsert x S hSsort
    have hTnd : (List.orderedInsert (· ≤ ·) x S).Nodup :=
      hperm.nodup_iff.2 (List.nodup_cons.2 ⟨hxS, hSnd⟩)
    have hTlt : ∀ y ∈ List.orderedInsert (· ≤ ·) x S, y < 12 := by
      intro y hy
      rcases List.mem_cons.1 (hperm.mem_iff.1 hy) with rfl | hy2
      · exact hx
      · exact hSlt y hy2
    have hTne : List.orderedInsert (· ≤ ·) x S ≠ [] := by
      intro hcon
      have hlen := hperm.length_eq
      rw [hcon] at hlen
      simp at hlen
    have hparse2 := parseNoteInput_noteNames _ hTne hTlt hTnd hTsort
    rw [mem_search_chords db _ _ hparse2, mem_buildIndex] at hmem
    obtain ⟨e, he2, c, hc2, p, hp2, hmne, hmid, hname⟩ := hmem
    exact hnone ⟨e, he2, c, hc2, p, hp2, hmne, hmid, hname.symm⟩

/-- C1 witness: in the one-voicing database `dbW`, the C-major voicing
{C,E,G} is found by the query "C E G" and "C" is absent from the query for
{C,D,E,G}. -/
theorem c1_reverse_index_exact_witness :
    "C".data ∈ (ReverseLookup.search dbW (noteNamesOf [0, 4, 7])).chords ∧
    "C".data ∉
      (ReverseLookup.search dbW (noteNamesOf (List.orderedInsert (· ≤ ·) 2 [0, 4, 7]))).chords := by
  have h := c1_reverse_index_exact dbW "C".data
    [⟨"major".data, [⟨[-1, 3, 2, 0, 1, 0], [48, 52, 55]⟩]⟩]
    ⟨"major".data, [⟨[-1, 3, 2, 0, 1, 0], [48, 52, 55]⟩]⟩
    ⟨[-1, 3, 2, 0, 1, 0], [48, 52, 55]⟩ [0, 4, 7] 2
    (by decide) (by decide) (by decide) (by decide) (by decide)
  exact ⟨h.1, h.2 (by decide) (by decide) (by decide)⟩

/-- C1 counterexample: in `dbCE` the chord name "C" has a voicing sounding
exactly {C,E,G} and another sounding exactly {C,D,E,G}; although 2 (= D) is
not in the first voicing's set, the query with the note names of
{C,E,G} ∪ {D} still returns a list containing "C" — superset queries can
match the same chord name through a different voicing. -/
theorem c1_reverse_index_counterexample :
    (∃ e ∈ dbCE.chords, ∃ c ∈ e.2, ∃ p ∈ c.positions, p.midi ≠ [] ∧
        ReverseLookup.midiToPitchClasses p.midi = [0, 4, 7] ∧
        ReverseLookup.chordNameOf (ReverseLookup.displayKeyOf e.1) c.suffix = "C".data) ∧
    (2 : Nat) ∉ ([0, 4, 7] : List Nat) ∧
    noteNamesOf (List.orderedInsert (· ≤ ·) 2 [0, 4, 7]) = "C D E G".data ∧
    "C".data ∈ (ReverseLookup.search dbCE "C D E G".data).chords := by
  refine ⟨⟨("C".data, [⟨"major".data,
      [⟨[-1, 3, 2, 0, 1, 0], [48, 52, 55]⟩,
       ⟨[-1, 3, 2, 0, 1, 0], [48, 50, 52, 55]⟩]⟩]),
    by decide, ⟨"major".data,
      [⟨[-1, 3, 2, 0, 1, 0], [48, 52, 55]⟩,
       ⟨[-1, 3, 2, 0, 1, 0], [48, 50, 52, 55]⟩]⟩,
    by decide, ⟨[-1, 3, 2, 0, 1, 0], [48, 52, 55]⟩,
    by decide, by decide, by decide, by decide⟩, by decide, by decide, by decide⟩
